import Mathlib

/-!
Verification of the graph-layout engine of the APalysis frontend.

The layout engine converts a directed graph description (nodes, edges,
nested subgraph containers) into a concrete 2D drawing.  Two variants
exist in the source: a flat absolute-coordinate layout (`computeLayout`,
dagre-based) and a Svelte-Flow oriented layout (`computeFlowLayout`)
producing parent-relative coordinates.

The external dagre solver is modelled as an oracle: a function from
entity keys to optional geometry.  The source treats it as a black box
("returns, for every registered node and cluster, a center (x, y) and an
effective (width, height)"), so every theorem quantifies over the
oracle's answers; a property proved here holds for every solver
behaviour, and a property refuted by some oracle answer is not
guaranteed by this code.

Coordinates are modelled by rationals.  JavaScript NaN/undefined
propagation is modelled separately (section `NanM`) with an explicit
value type, for the claims that are about numeric fallbacks.

The file is organised as: data model, the two layout variants'
definitions, the NaN model, then all theorems.
-/

/-! # Data model -/

/-- A 2D point, as produced by the layout (`{ x, y }` literals). -/
structure Pt where
  x : ℚ
  y : ℚ
deriving DecidableEq, Repr

/-- `TorchviewNode` (types.ts): the fields the layout reads.  `nodeType`
is kept as a string so that the comparison `node.nodeType === 'tensor'`
is modelled verbatim. -/
structure TVNode where
  id : String
  name : String
  nodeType : String
  depth : ℤ
  subgraph : Option String
deriving DecidableEq, Repr

/-- `TorchviewEdge` (types.ts): source key, target key, multiplicity count. -/
structure TVEdge where
  source : String
  target : String
  count : ℕ
deriving DecidableEq, Repr

/-- `Subgraph` (types.ts): the fields the layout reads. -/
structure SubgraphInfo where
  label : String
  parent : Option String
  depth : ℤ
deriving DecidableEq, Repr

/-- `TorchviewGraphData`: nodes, edges, and the subgraph record (an
insertion-ordered key/value object, modelled as an association list with
distinct keys). -/
structure GraphData where
  nodes : List TVNode
  edges : List TVEdge
  subgraphs : List (String × SubgraphInfo)
deriving DecidableEq, Repr

/-- Geometry dagre reports for a node or cluster: center coordinates and
effective size (`g.node(id)` after `dagre.layout`). -/
structure DagreGeom where
  x : ℚ
  y : ℚ
  width : ℚ
  height : ℚ
deriving DecidableEq, Repr

/-- The dagre solver as an oracle: per-entity geometry and per-edge route
points.  `node id = none` models dagre returning no record for `id`;
`edge s t = none` models a missing edge record or missing `points`. -/
structure Solver where
  node : String → Option DagreGeom
  edge : String → String → Option (List Pt)

/-- JavaScript `Map.prototype.set` / object-key assignment over an
insertion-ordered association list: an existing key is overwritten in
place, a new key is appended. -/
def mapSet {α : Type} (m : List (String × α)) (k : String) (v : α) :
    List (String × α) :=
  if m.any (fun p => p.1 = k) then
    m.map (fun p => if p.1 = k then (k, v) else p)
  else
    m ++ [(k, v)]

/-! # Cycle analyzer (`findBackEdges`, identical in both source variants)

The source recursion

    function dfs(nodeId) {
      visited.add(nodeId); inStack.add(nodeId);
      for (const neighbor of outgoing.get(nodeId) || []) {
        if (inStack.has(neighbor)) backEdges.add(`${nodeId}->${neighbor}`);
        else if (!visited.has(neighbor)) dfs(neighbor);
      }
      inStack.delete(nodeId);
    }

is embedded as a worklist machine: a frame `(u, ns)` is an active call
`dfs(u)` whose remaining neighbor iteration is `ns`; entering `dfs(n)`
pushes `(n, outgoing(n))` after marking `n` visited and on-stack, and an
exhausted frame removes its node from the stack.  The sets become lists
used only through membership. -/

/-- The back-edge set is keyed by `source + "->" + target`. -/
def edgeKey (s t : String) : String := s ++ "->" ++ t

/-- The adjacency the source builds: `outgoing` maps every node id to
the targets of its outgoing edges in edge order; a key absent from the
node list has no entry (`outgoing.get(...) || []` yields `[]`). -/
def outgoingOf (nodes : List TVNode) (edges : List TVEdge) (v : String) :
    List String :=
  if v ∈ nodes.map (fun n => n.id) then
    (edges.filter (fun e => e.source = v)).map (fun e => e.target)
  else []

/-- The mutable traversal state of `findBackEdges`. -/
structure DfsSt where
  visited : List String
  inStack : List String
  backEdges : List String
deriving DecidableEq, Repr

/-- Every id the traversal can ever touch: the node ids (roots) and the
edge targets (neighbors). -/
def dfsUniv (nodes : List TVNode) (edges : List TVEdge) : Finset String :=
  (nodes.map (fun n => n.id)).toFinset ∪ (edges.map (fun e => e.target)).toFinset

theorem outgoingOf_subset_univ (nodes : List TVNode) (edges : List TVEdge)
    (v : String) : ∀ t ∈ outgoingOf nodes edges v, t ∈ dfsUniv nodes edges := by
  intro t ht
  unfold outgoingOf at ht
  unfold dfsUniv
  split at ht
  · simp only [List.mem_map, List.mem_filter] at ht
    obtain ⟨e, ⟨he, _⟩, rfl⟩ := ht
    exact Finset.mem_union_right _ (by
      simp only [List.mem_toFinset, List.mem_map]
      exact ⟨e, he, rfl⟩)
  · simp at ht

/-- Weight of a worklist: one unit per frame plus one per pending
neighbor. -/
def framesWeight (frames : List (String × List String)) : ℕ :=
  (frames.map (fun f => f.2.length + 1)).sum

/-- The DFS worklist machine.  `hf` records that every pending neighbor
is in the finite universe; it is what makes the recursion terminate and
carries no computational content. -/
def dfsRun (nodes : List TVNode) (edges : List TVEdge) :
    (frames : List (String × List String)) → DfsSt →
    (hf : ∀ f ∈ frames, ∀ n ∈ f.2, n ∈ dfsUniv nodes edges) → DfsSt
  | [], st, _ => st
  | (u, []) :: rest, st, hf =>
      dfsRun nodes edges rest { st with inStack := st.inStack.erase u }
        (fun f hfr => hf f (List.mem_cons_of_mem _ hfr))
  | (u, n :: ns) :: rest, st, hf =>
      if n ∈ st.inStack then
        dfsRun nodes edges ((u, ns) :: rest)
          { st with backEdges := edgeKey u n :: st.backEdges }
          (fun f hfr x hx => by
            rcases List.mem_cons.mp hfr with h | h
            · exact hf (u, n :: ns) (List.mem_cons_self _ _) x
                (by rw [h] at hx; exact List.mem_cons_of_mem _ hx)
            · exact hf f (List.mem_cons_of_mem _ h) x hx)
      else if n ∈ st.visited then
        dfsRun nodes edges ((u, ns) :: rest) st
          (fun f hfr x hx => by
            rcases List.mem_cons.mp hfr with h | h
            · exact hf (u, n :: ns) (List.mem_cons_self _ _) x
                (by rw [h] at hx; exact List.mem_cons_of_mem _ hx)
            · exact hf f (List.mem_cons_of_mem _ h) x hx)
      else
        dfsRun nodes edges ((n, outgoingOf nodes edges n) :: (u, ns) :: rest)
          { st with visited := n :: st.visited, inStack := n :: st.inStack }
          (fun f hfr x hx => by
            rcases List.mem_cons.mp hfr with h | h
            · exact outgoingOf_subset_univ nodes edges n x (by rw [h] at hx; exact hx)
            · rcases List.mem_cons.mp h with h2 | h2
              · exact hf (u, n :: ns) (List.mem_cons_self _ _) x
                  (by rw [h2] at hx; exact List.mem_cons_of_mem _ hx)
              · exact hf f (List.mem_cons_of_mem _ h2) x hx)
termination_by frames st _ =>
  (((dfsUniv nodes edges) \ st.visited.toFinset).card, framesWeight frames)
decreasing_by
  · apply Prod.Lex.right
    simp [framesWeight]
  · apply Prod.Lex.right
    simp [framesWeight]
  · apply Prod.Lex.right
    simp [framesWeight]
  · apply Prod.Lex.left
    apply Finset.card_lt_card
    apply Finset.ssubset_iff_of_subset (Finset.sdiff_subset_sdiff le_rfl ?_) |>.mpr ?_
    · intro x hx
      simp only [List.toFinset_cons, Finset.mem_insert] at *
      exact Or.inr hx
    · refine ⟨n, ?_, ?_⟩
      · simp only [Finset.mem_sdiff, List.mem_toFinset]
        refine ⟨hf (u, n :: ns) (List.mem_cons_self _ _) n (List.mem_cons_self _ _), ?_⟩
        assumption
      · simp

/-- One iteration of the root loop of `findBackEdges`: skip an already
visited node, otherwise enter `dfs(node.id)`. -/
def dfsStep (nodes : List TVNode) (edges : List TVEdge) (st : DfsSt)
    (node : TVNode) : DfsSt :=
  if node.id ∈ st.visited then st
  else
    dfsRun nodes edges [(node.id, outgoingOf nodes edges node.id)]
      { st with visited := node.id :: st.visited,
                inStack := node.id :: st.inStack }
      (fun f hfr x hx => by
        rcases List.mem_cons.mp hfr with h | h
        · exact outgoingOf_subset_univ nodes edges node.id x (by rw [h] at hx; exact hx)
        · simp at h)

/-- `findBackEdges`: run `dfs` from every not-yet-visited node, in node
list order, and return the accumulated back-edge keys (a set in the
source, used only through membership). -/
def findBackEdges (nodes : List TVNode) (edges : List TVEdge) : List String :=
  (nodes.foldl (dfsStep nodes edges) ⟨[], [], []⟩).backEdges

namespace Layout

/-! # Flat layout variant (dagre-based `computeLayout`) -/

-- Layout constants of the flat variant.
def NODE_WIDTH : ℚ := 200
def NODE_HEIGHT : ℚ := 80
def TENSOR_WIDTH : ℚ := 160
def TENSOR_HEIGHT : ℚ := 60
def SUBGRAPH_PADDING : ℚ := 20

/-- `getNodeDimensions` (flat variant): tensor nodes get the compact
size, every other node type the standard size. -/
def getNodeDimensions (node : TVNode) : ℚ × ℚ :=
  if node.nodeType = "tensor" then
    (TENSOR_WIDTH, TENSOR_HEIGHT)
  else
    (NODE_WIDTH, NODE_HEIGHT)

/-- The depth-dependent padding of the fallback box computation:
`SUBGRAPH_PADDING + (5 - Math.min(sgInfo.depth || 1, 5)) * 4`.
JavaScript `depth || 1` replaces the falsy depth 0 by 1. -/
def depthPadding (depth : ℤ) : ℚ :=
  SUBGRAPH_PADDING + (5 - min (if depth = 0 then 1 else (depth : ℚ)) 5) * 4

/-- A laid-out node: the input node plus top-left position and size. -/
structure LayoutNode where
  node : TVNode
  x : ℚ
  y : ℚ
  width : ℚ
  height : ℚ
deriving DecidableEq, Repr

/-- The synthesized loop path of a back edge (flat variant): exits the
source's right-center anchor, loops above both endpoints at
`min(startY, endY) - loopOffset`, and enters the target's left-center
anchor. -/
def backEdgePoints (sourceNode targetNode : LayoutNode) : List Pt :=
  let startX := sourceNode.x + sourceNode.width
  let startY := sourceNode.y + sourceNode.height / 2
  let endX := targetNode.x
  let endY := targetNode.y + targetNode.height / 2
  let loopOffset : ℚ := 60
  [ ⟨startX, startY⟩,
    ⟨startX + loopOffset, startY⟩,
    ⟨startX + loopOffset, min startY endY - loopOffset⟩,
    ⟨endX - loopOffset, min startY endY - loopOffset⟩,
    ⟨endX - loopOffset, endY⟩,
    ⟨endX, endY⟩ ]

end Layout

namespace Flow

/-! # Svelte-Flow layout variant (`computeFlowLayout`) -/

-- Layout constants of the flow variant.
def NODE_WIDTH : ℚ := 200
def NODE_HEIGHT : ℚ := 160
def SUBGRAPH_PADDING : ℚ := 40

/-- `getNodeDimensions` (flow variant): every node type gets the same
`NODE_WIDTH × NODE_HEIGHT` box (the comment in the source says all node
types use `BaseNode`). -/
def getNodeDimensions (_nodeType : String) : ℚ × ℚ :=
  (NODE_WIDTH, NODE_HEIGHT)

end Flow

namespace Layout

/-! ## SVG path synthesis (`generateEdgePath`) -/

/-- A routed layout edge: the input edge fields plus the computed path
points and the back-edge flag.  `points` is optional to model the
defensive `!edge.points` check of the source. -/
structure LayoutEdge where
  source : String
  target : String
  count : ℕ
  isBackEdge : Bool
  points : Option (List Pt)
deriving DecidableEq, Repr

/-- Template-string rendering of a point, `${p.x} ${p.y}`. -/
def rs (p : Pt) : String := toString p.x ++ " " ++ toString p.y

/-- The quadratic-segment chain of `generateEdgePath` for four or more
points: the loop `for (let i = 1; i < points.length - 1; i++)`, running
over the points after the first; the last pair emits the closing curve
to the end point, every earlier pair a curve to the segment midpoint. -/
def qChain : List Pt → String
  | p :: next :: rest =>
      if rest = [] then
        " Q " ++ rs p ++ ", " ++ rs next
      else
        " Q " ++ rs p ++ ", " ++ toString ((p.x + next.x) / 2) ++ " " ++
          toString ((p.y + next.y) / 2) ++ qChain (next :: rest)
  | _ => ""

/-- `generateEdgePath`: empty string if the points are missing or fewer
than two; a smooth multi-point path for back edges or solver polylines;
a cubic S-curve for a simple two-point forward edge. -/
def generateEdgePath (edge : LayoutEdge) : String :=
  match edge.points with
  | none => ""
  | some [] => ""
  | some [_] => ""
  | some (start :: p1 :: rest) =>
      let pts := start :: p1 :: rest
      let endp := pts.getLast (by simp)
      if edge.isBackEdge = true ∨ pts.length > 2 then
        if pts.length = 2 then
          "M " ++ rs start ++ " L " ++ rs endp
        else if pts.length = 3 then
          "M " ++ rs start ++ " Q " ++ rs p1 ++ ", " ++ rs endp
        else
          "M " ++ rs start ++ qChain (p1 :: rest)
      else
        let dx := endp.x - start.x
        let midX := start.x + dx * (1 / 2)
        "M " ++ rs start ++ " C " ++ toString midX ++ " " ++ toString start.y ++
          ", " ++ toString midX ++ " " ++ toString endp.y ++ ", " ++ rs endp

end Layout

namespace Layout

/-! ## Flat-variant layout assembly (`computeLayout`)

The dagre invocation is split in two: `buildSolverInput` collects the
registration calls made on the dagre graph (clusters in ascending-depth
order, leaf nodes with their dimensions, the non-back edges with their
weights), and the `Solver` oracle stands for the geometry
`dagre.layout` writes back. -/

/-- Ascending-depth order of the subgraph entries
(`sort((a, b) => (a.depth||0) - (b.depth||0))`; JavaScript sort is
stable, as is insertion sort, so the results agree). -/
def sortSubgraphsAsc (sgs : List (String × SubgraphInfo)) :
    List (String × SubgraphInfo) :=
  sgs.insertionSort (fun a b => a.2.depth ≤ b.2.depth)

/-- Descending-depth order of the subgraph entries
(`sort((a, b) => (b.depth||0) - (a.depth||0))`). -/
def sortSubgraphsDesc (sgs : List (String × SubgraphInfo)) :
    List (String × SubgraphInfo) :=
  sgs.insertionSort (fun a b => b.2.depth ≤ a.2.depth)

/-- What the adapter registers with dagre before invoking it. -/
structure SolverInput where
  clusters : List (String × SubgraphInfo)
  parents : List (String × String)
  nodes : List (String × ℚ × ℚ)
  edges : List (String × String × ℕ)
deriving DecidableEq, Repr

/-- `Map`/object lookup in an association list with unique keys. -/
def mapGet {α : Type} (m : List (String × α)) (k : String) : Option α :=
  (m.find? (fun p => p.1 = k)).map (fun p => p.2)

/-- The edge-registration loop shared (verbatim) by both variants:
`if (!isBackEdge) g.setEdge(source, target, { weight: count || 1 })`,
collected as the sequence of `setEdge` calls. -/
def registeredEdges (nodes : List TVNode) (edges : List TVEdge) :
    List (String × String × ℕ) :=
  let backEdges := findBackEdges nodes edges
  edges.foldl
    (fun acc e =>
      if edgeKey e.source e.target ∈ backEdges then acc
      else acc ++ [(e.source, e.target, if e.count = 0 then 1 else e.count)]) []

/-- The registration section of `computeLayout`: clusters by ascending
depth with parent assignment when the declared parent exists, every node
with its category dimensions and its subgraph parent when it exists, and
every non-back edge with weight `edge.count || 1`. -/
def buildSolverInput (g : GraphData) : SolverInput :=
  let sorted := sortSubgraphsAsc g.subgraphs
  let clusterParents := sorted.foldl
    (fun acc p =>
      match p.2.parent with
      | some par => if (mapGet g.subgraphs par).isSome then acc ++ [(p.1, par)] else acc
      | none => acc) []
  let nodeParents := g.nodes.foldl
    (fun acc n =>
      match n.subgraph with
      | some par => if (mapGet g.subgraphs par).isSome then acc ++ [(n.id, par)] else acc
      | none => acc) []
  { clusters := sorted
    parents := clusterParents ++ nodeParents
    nodes := g.nodes.map (fun n => (n.id, getNodeDimensions n))
    edges := registeredEdges g.nodes g.edges }

/-- Extraction of node positions from the solver: center coordinates are
converted to top-left; a node the solver reports nothing for is placed
at the origin. -/
def layoutNodesOf (sv : Solver) (nodes : List TVNode) : List LayoutNode :=
  nodes.map (fun node =>
    let dims := getNodeDimensions node
    match sv.node node.id with
    | some dn => ⟨node, dn.x - dims.1 / 2, dn.y - dims.2 / 2, dims.1, dims.2⟩
    | none => ⟨node, 0, 0, dims.1, dims.2⟩)

/-- The node lookup map built from the laid-out nodes. -/
def nodeMapOf (lns : List LayoutNode) : List (String × LayoutNode) :=
  lns.foldl (fun m n => mapSet m n.node.id n) []

/-- Routing of one edge: `null` when an endpoint is missing from the
node map; a synthesized loop for a back edge; the solver polyline when
present and non-trivial; otherwise the straight right-center to
left-center connector. -/
def layoutEdgeOf (sv : Solver) (backEdges : List String)
    (nodeMap : List (String × LayoutNode)) (edge : TVEdge) :
    Option LayoutEdge :=
  match mapGet nodeMap edge.source, mapGet nodeMap edge.target with
  | some sourceNode, some targetNode =>
      if edgeKey edge.source edge.target ∈ backEdges then
        some ⟨edge.source, edge.target, edge.count, true,
          some (backEdgePoints sourceNode targetNode)⟩
      else
        match sv.edge edge.source edge.target with
        | some ps =>
            if ps.length > 0 then
              some ⟨edge.source, edge.target, edge.count, false, some ps⟩
            else
              some ⟨edge.source, edge.target, edge.count, false,
                some [⟨sourceNode.x + sourceNode.width,
                        sourceNode.y + sourceNode.height / 2⟩,
                      ⟨targetNode.x, targetNode.y + targetNode.height / 2⟩]⟩
        | none =>
            some ⟨edge.source, edge.target, edge.count, false,
              some [⟨sourceNode.x + sourceNode.width,
                      sourceNode.y + sourceNode.height / 2⟩,
                    ⟨targetNode.x, targetNode.y + targetNode.height / 2⟩]⟩
  | _, _ => none

/-- Direct children of a container: the subgraph entries that declare it
as parent, in record order (the `childSubgraphs` map). -/
def childSubgraphsOf (sgs : List (String × SubgraphInfo)) (p : String) :
    List String :=
  (sgs.filter (fun q => q.2.parent = some p)).map (fun q => q.1)

/-- Containers reachable from `x` through 1..k child steps.  The source
explores the same set with an unbounded breadth-first queue and no
visited check; on parent forests (the data-model invariant: a parent's
declared depth is strictly below its child's, so parent links are
acyclic) every child chain is simple, hence of length at most the
container count, and the bounded expansion used here reaches exactly the
same set. -/
def descWithin (children : String → List String) : ℕ → String → List String
  | 0, _ => []
  | k + 1, x => (children x).flatMap (fun c => c :: descWithin children k c)

/-- `getAllDescendantSubgraphs`: every container transitively below
`sgId`. -/
def getAllDescendantSubgraphs (sgs : List (String × SubgraphInfo))
    (sgId : String) : List String :=
  descWithin (childSubgraphsOf sgs) sgs.length sgId

/-- `Math.min(...l)` over a non-empty list (0 is never used: callers
guard emptiness). -/
def qMin : List ℚ → ℚ
  | [] => 0
  | x :: xs => xs.foldl min x

/-- `Math.max(...l)` over a non-empty list. -/
def qMax : List ℚ → ℚ
  | [] => 0
  | x :: xs => xs.foldl max x

/-- A synthesized container box. -/
structure SubgraphBox where
  x : ℚ
  y : ℚ
  width : ℚ
  height : ℚ
  label : String
  depth : ℤ
  parent : Option String
deriving DecidableEq, Repr

/-- The descendant-membership test of the fallback node filter
(`n.subgraph && descendants.has(n.subgraph)`). -/
def isDescNode (descendants : List String) (n : LayoutNode) : Bool :=
  match n.node.subgraph with
  | some s => s ∈ descendants
  | none => false

/-- One step of the child-box extent fold of the fallback path. -/
def extStep (boxes : List (String × SubgraphBox)) :
    ℚ × ℚ × ℚ × ℚ → String → ℚ × ℚ × ℚ × ℚ := fun acc childId =>
  match mapGet boxes childId with
  | some cb =>
      (min acc.1 cb.x, min acc.2.1 cb.y,
       max acc.2.2.1 (cb.x + cb.width), max acc.2.2.2 (cb.y + cb.height))
  | none => acc

/-- The fallback box of one container: the bounding rectangle of its
direct nodes, its descendants' nodes and its already-computed direct
child boxes, expanded by the depth padding and an 18-pixel label band;
`none` when the container owns no node at all. -/
def fallbackBox (sgs : List (String × SubgraphInfo))
    (layoutNodes : List LayoutNode) (boxes : List (String × SubgraphBox))
    (sgId : String) (sgInfo : SubgraphInfo) : Option SubgraphBox :=
  let directNodes := layoutNodes.filter (fun n => n.node.subgraph = some sgId)
  let descendants := getAllDescendantSubgraphs sgs sgId
  let descendantNodes := layoutNodes.filter (isDescNode descendants)
  let allNodes := directNodes ++ descendantNodes
  if allNodes.isEmpty then none
  else
    let minX0 := qMin (allNodes.map (fun n => n.x))
    let minY0 := qMin (allNodes.map (fun n => n.y))
    let maxX0 := qMax (allNodes.map (fun n => n.x + n.width))
    let maxY0 := qMax (allNodes.map (fun n => n.y + n.height))
    let ext := (childSubgraphsOf sgs sgId).foldl (Layout.extStep boxes)
      (minX0, minY0, maxX0, maxY0)
    let dp := depthPadding sgInfo.depth
    some ⟨ext.1 - dp, ext.2.1 - dp - 18,
          ext.2.2.1 - ext.1 + dp * 2, ext.2.2.2 - ext.2.1 + dp * 2 + 18,
          sgInfo.label, sgInfo.depth, sgInfo.parent⟩

/-- Container boxes, deepest containers first: dagre's cluster geometry
when it reports a record with truthy (non-zero) width and height,
otherwise the fallback aggregation; a container with no usable geometry
and no nodes is omitted. -/
def subgraphBoxesOf (sv : Solver) (sgs : List (String × SubgraphInfo))
    (layoutNodes : List LayoutNode) : List (String × SubgraphBox) :=
  (sortSubgraphsDesc sgs).foldl
    (fun boxes p =>
      let usable := match sv.node p.1 with
        | some dn => if dn.width ≠ 0 ∧ dn.height ≠ 0 then some dn else none
        | none => none
      match usable with
      | some dn =>
          mapSet boxes p.1
            ⟨dn.x - dn.width / 2, dn.y - dn.height / 2, dn.width, dn.height,
             p.2.label, p.2.depth, p.2.parent⟩
      | none =>
          match fallbackBox sgs layoutNodes boxes p.1 p.2 with
          | some b => mapSet boxes p.1 b
          | none => boxes)
    []

/-- The right/bottom extent folds of the final section of
`computeLayout`: the running maxima start at 0 and absorb every node and
every box. -/
def canvasExtent (layoutNodes : List LayoutNode)
    (boxes : List (String × SubgraphBox)) : ℚ × ℚ :=
  let nmax := layoutNodes.foldl
    (fun (acc : ℚ × ℚ) n => (max acc.1 (n.x + n.width), max acc.2 (n.y + n.height)))
    (0, 0)
  boxes.foldl
    (fun (acc : ℚ × ℚ) p =>
      (max acc.1 (p.2.x + p.2.width), max acc.2 (p.2.y + p.2.height)))
    nmax

/-- The result of `computeLayout`. -/
structure LayoutData where
  nodes : List LayoutNode
  edges : List LayoutEdge
  subgraphBoxes : List (String × SubgraphBox)
  width : ℚ
  height : ℚ
deriving DecidableEq, Repr

/-- `computeLayout`: empty graphs short-circuit to an empty result with
the 800×600 canvas; otherwise back edges are classified, the solver is
consulted (the registration it receives is `buildSolverInput`), node
positions are projected, edges are routed, container boxes are
synthesized and the canvas is the extent plus a 100-pixel margin. -/
def computeLayout (sv : Solver) (g : GraphData) : LayoutData :=
  if g.nodes.isEmpty then ⟨[], [], [], 800, 600⟩
  else
    let backEdges := findBackEdges g.nodes g.edges
    let layoutNodes := layoutNodesOf sv g.nodes
    let nodeMap := nodeMapOf layoutNodes
    let layoutEdges := (g.edges.map (layoutEdgeOf sv backEdges nodeMap)).reduceOption
    let boxes := subgraphBoxesOf sv g.subgraphs layoutNodes
    let ext := canvasExtent layoutNodes boxes
    ⟨layoutNodes, layoutEdges, boxes, ext.1 + 100, ext.2 + 100⟩

end Layout

/-- A center-converted rectangle stored in `absolutePositions`. -/
structure Rect where
  x : ℚ
  y : ℚ
  width : ℚ
  height : ℚ
deriving DecidableEq, Repr

namespace Flow

/-! ## Flow-variant layout assembly (`computeFlowLayout`)

This rational model assumes the solver's records carry definite numbers,
on which the `safeNum` guards are the identity; the `NanM` section
models the undefined/NaN behaviour of `safeNum` itself. -/

/-- The registration section of `computeFlowLayout`: identical to the
flat variant except for the single node size. -/
def buildFlowSolverInput (g : GraphData) : Layout.SolverInput :=
  let sorted := Layout.sortSubgraphsAsc g.subgraphs
  let clusterParents := sorted.foldl
    (fun acc p =>
      match p.2.parent with
      | some par =>
          if (Layout.mapGet g.subgraphs par).isSome then acc ++ [(p.1, par)] else acc
      | none => acc) []
  let nodeParents := g.nodes.foldl
    (fun acc n =>
      match n.subgraph with
      | some par =>
          if (Layout.mapGet g.subgraphs par).isSome then acc ++ [(n.id, par)] else acc
      | none => acc) []
  { clusters := sorted
    parents := clusterParents ++ nodeParents
    nodes := g.nodes.map (fun n => (n.id, getNodeDimensions n.nodeType))
    edges := Layout.registeredEdges g.nodes g.edges }

/-- First pass over the subgraphs then second pass over the nodes:
absolute top-left positions for every entity (`absolutePositions`). -/
def absolutePositionsOf (sv : Solver) (g : GraphData) : List (String × Rect) :=
  let pass1 := (Layout.sortSubgraphsAsc g.subgraphs).foldl
    (fun m p =>
      match sv.node p.1 with
      | some dn =>
          mapSet m p.1
            ⟨dn.x - dn.width / 2, dn.y - dn.height / 2, dn.width, dn.height⟩
      | none => m) []
  g.nodes.foldl
    (fun m n =>
      let dims := getNodeDimensions n.nodeType
      match sv.node n.id with
      | some dn =>
          mapSet m n.id ⟨dn.x - dims.1 / 2, dn.y - dims.2 / 2, dims.1, dims.2⟩
      | none => mapSet m n.id ⟨0, 0, dims.1, dims.2⟩)
    pass1

/-- A Svelte Flow node as emitted by the layout (the geometric and
hierarchy fields; styling fields are presentation constants). -/
structure FlowNode where
  id : String
  nodeType : String
  x : ℚ
  y : ℚ
  parentId : Option String
  width : ℚ
  height : ℚ
deriving DecidableEq, Repr

/-- The immediate parent actually assigned: the declared container when
it exists in the subgraph map. -/
def parentIdOf (sgs : List (String × SubgraphInfo)) (declared : Option String) :
    Option String :=
  match declared with
  | some par => if (Layout.mapGet sgs par).isSome then some par else none
  | none => none

/-- Conversion to the parent-relative frame: subtract the parent's
absolute origin when the parent has one, else keep the absolute value. -/
def relPos (abs : Rect) (parentId : Option String)
    (m : List (String × Rect)) : ℚ × ℚ :=
  match parentId with
  | some pid =>
      match Layout.mapGet m pid with
      | some pr => (abs.x - pr.x, abs.y - pr.y)
      | none => (abs.x, abs.y)
  | none => (abs.x, abs.y)

/-- The emitted flow nodes: one `group` node per subgraph with a
position (depth-ascending), then one node per graph node; an entity
without an absolute position is skipped. -/
def flowNodesOf (sv : Solver) (g : GraphData) : List FlowNode :=
  let m := absolutePositionsOf sv g
  let groups := (Layout.sortSubgraphsAsc g.subgraphs).foldl
    (fun acc p =>
      match Layout.mapGet m p.1 with
      | some absPos =>
          let parentId := parentIdOf g.subgraphs p.2.parent
          let pos := relPos absPos parentId m
          acc ++ [⟨p.1, "group", pos.1, pos.2, parentId, absPos.width, absPos.height⟩]
      | none => acc) []
  g.nodes.foldl
    (fun acc n =>
      match Layout.mapGet m n.id with
      | some absPos =>
          let dims := getNodeDimensions n.nodeType
          let parentId := parentIdOf g.subgraphs n.subgraph
          let pos := relPos absPos parentId m
          acc ++ [⟨n.id, n.nodeType, pos.1, pos.2, parentId, dims.1, dims.2⟩]
      | none => acc)
    groups

/-- A Svelte Flow edge as emitted by the layout. -/
structure FlowEdge where
  id : String
  source : String
  target : String
  eType : String
  animated : Bool
  count : ℕ
  isBackEdge : Bool
deriving DecidableEq, Repr

/-- The emitted flow edges: every input edge is converted, with the
custom `back` type and animation flag for back edges. -/
def flowEdgesOf (backEdges : List String) (edges : List TVEdge) :
    List FlowEdge :=
  edges.map (fun e =>
    let isBack := decide (edgeKey e.source e.target ∈ backEdges)
    ⟨e.source ++ "-" ++ e.target, e.source, e.target,
     if isBack then "back" else "default", isBack, e.count, isBack⟩)

/-- The result of `computeFlowLayout`. -/
structure FlowLayoutData where
  nodes : List FlowNode
  edges : List FlowEdge
  width : ℚ
  height : ℚ
deriving DecidableEq, Repr

/-- `computeFlowLayout`: empty graphs short-circuit to the empty result
with the 800×600 canvas; otherwise the canvas is the maximal extent of
the absolute positions plus a 100-pixel margin, floored at 800×600. -/
def computeFlowLayout (sv : Solver) (g : GraphData) : FlowLayoutData :=
  if g.nodes.isEmpty then ⟨[], [], 800, 600⟩
  else
    let backEdges := findBackEdges g.nodes g.edges
    let m := absolutePositionsOf sv g
    let mx := m.foldl (fun acc p => max acc (p.2.x + p.2.width)) 0
    let my := m.foldl (fun acc p => max acc (p.2.y + p.2.height)) 0
    ⟨flowNodesOf sv g, flowEdgesOf backEdges g.edges,
     max (mx + 100) 800, max (my + 100) 600⟩

end Flow

namespace NanM

/-! ## Undefined/NaN model of the coordinate projection

A JavaScript number read from the solver is here `undef`, `nan`, or a
definite rational; arithmetic on a non-definite operand yields `nan`,
as in JavaScript (where `undefined` coerces to NaN).  This section
re-expresses the coordinate-extraction passes of both variants over
these values, so that the numeric-fallback claims are about the guards
themselves rather than about a type that cannot express NaN. -/

/-- A JavaScript number value: undefined, NaN, or a definite number. -/
inductive JVal where
  | undef : JVal
  | nan : JVal
  | num : ℚ → JVal
deriving DecidableEq, Repr

/-- A definite (non-NaN, defined) number. -/
def JVal.isNum : JVal → Bool
  | JVal.num _ => true
  | _ => false

/-- Subtraction; any non-definite operand poisons the result. -/
def JVal.sub : JVal → JVal → JVal
  | JVal.num a, JVal.num b => JVal.num (a - b)
  | _, _ => JVal.nan

/-- Addition with the same poisoning. -/
def JVal.add : JVal → JVal → JVal
  | JVal.num a, JVal.num b => JVal.num (a + b)
  | _, _ => JVal.nan

/-- Halving (`v / 2`). -/
def JVal.half : JVal → JVal
  | JVal.num a => JVal.num (a / 2)
  | _ => JVal.nan

/-- `Math.max` over two values (NaN-propagating). -/
def JVal.jmax : JVal → JVal → JVal
  | JVal.num a, JVal.num b => JVal.num (max a b)
  | _, _ => JVal.nan

/-- `safeNum` (flow variant): the fallback replaces an undefined, null
or NaN value; a definite value passes through. -/
def safeNum (v : JVal) (fallback : ℚ) : JVal :=
  match v with
  | JVal.num q => JVal.num q
  | _ => JVal.num fallback

/-- A solver record whose fields may each be undefined or NaN. -/
structure NanGeom where
  x : JVal
  y : JVal
  width : JVal
  height : JVal
deriving DecidableEq, Repr

/-- A rectangle of JavaScript numbers. -/
structure JRect where
  x : JVal
  y : JVal
  width : JVal
  height : JVal
deriving DecidableEq, Repr

/-- Flow variant, first `absolutePositions` pass (subgraphs): every
solver field is `safeNum`-guarded before the center conversion. -/
def subgraphAbsPos (dn : NanGeom) : JRect :=
  let width := safeNum dn.width 200
  let height := safeNum dn.height 100
  ⟨(safeNum dn.x 0).sub width.half, (safeNum dn.y 0).sub height.half,
   width, height⟩

/-- Flow variant, second `absolutePositions` pass (nodes): guarded
center conversion with the fixed node dimensions, origin fallback for a
missing record. -/
def nodeAbsPos (dn : Option NanGeom) (dims : ℚ × ℚ) : JRect :=
  match dn with
  | some d =>
      ⟨(safeNum d.x 0).sub (JVal.num (dims.1 / 2)),
       (safeNum d.y 0).sub (JVal.num (dims.2 / 2)),
       JVal.num dims.1, JVal.num dims.2⟩
  | none => ⟨JVal.num 0, JVal.num 0, JVal.num dims.1, JVal.num dims.2⟩

/-- The `absolutePositions` map of `computeFlowLayout` over JavaScript
numbers; `nsv` is the solver oracle. -/
def absolutePositionsN (nsv : String → Option NanGeom) (g : GraphData) :
    List (String × JRect) :=
  let pass1 := (Layout.sortSubgraphsAsc g.subgraphs).foldl
    (fun m p =>
      match nsv p.1 with
      | some dn => mapSet m p.1 (subgraphAbsPos dn)
      | none => m) []
  g.nodes.foldl
    (fun m n =>
      mapSet m n.id (nodeAbsPos (nsv n.id) (Flow.getNodeDimensions n.nodeType)))
    pass1

/-- The parent-relative position before the final guard. -/
def relPosN (abs : JRect) (parentId : Option String)
    (m : List (String × JRect)) : JVal × JVal :=
  match parentId with
  | some pid =>
      match Layout.mapGet m pid with
      | some pr => (abs.x.sub pr.x, abs.y.sub pr.y)
      | none => (abs.x, abs.y)
  | none => (abs.x, abs.y)

/-- The geometry (final position after the last `safeNum` guard, and
size) of every flow node the layout emits: group nodes first, then the
graph nodes. -/
def flowNodeGeomsN (nsv : String → Option NanGeom) (g : GraphData) :
    List (String × JVal × JVal × JVal × JVal) :=
  let m := absolutePositionsN nsv g
  let groups := (Layout.sortSubgraphsAsc g.subgraphs).foldl
    (fun acc p =>
      match Layout.mapGet m p.1 with
      | some absPos =>
          let parentId := Flow.parentIdOf g.subgraphs p.2.parent
          let pos := relPosN absPos parentId m
          acc ++ [(p.1, safeNum pos.1 0, safeNum pos.2 0, absPos.width, absPos.height)]
      | none => acc) []
  g.nodes.foldl
    (fun acc n =>
      match Layout.mapGet m n.id with
      | some absPos =>
          let dims := Flow.getNodeDimensions n.nodeType
          let parentId := Flow.parentIdOf g.subgraphs n.subgraph
          let pos := relPosN absPos parentId m
          acc ++ [(n.id, safeNum pos.1 0, safeNum pos.2 0,
                   JVal.num dims.1, JVal.num dims.2)]
      | none => acc)
    groups

/-- The flow canvas size over JavaScript numbers:
`Math.max(extent + 100, minimum)` for each axis. -/
def canvasN (nsv : String → Option NanGeom) (g : GraphData) : JVal × JVal :=
  let m := absolutePositionsN nsv g
  let mx := m.foldl (fun acc p => acc.jmax (p.2.x.add p.2.width)) (JVal.num 0)
  let my := m.foldl (fun acc p => acc.jmax (p.2.y.add p.2.height)) (JVal.num 0)
  ((mx.add (JVal.num 100)).jmax (JVal.num 800),
   (my.add (JVal.num 100)).jmax (JVal.num 600))

/-- Flat variant (`computeLayout`) node projection over JavaScript
numbers: only the record's existence is guarded
(`dagreNode ? dagreNode.x - dims.width / 2 : 0`); the fields are used
unguarded. -/
def layoutNodePosN (dn : Option NanGeom) (dims : ℚ × ℚ) : JVal × JVal :=
  match dn with
  | some d =>
      (d.x.sub (JVal.num (dims.1 / 2)), d.y.sub (JVal.num (dims.2 / 2)))
  | none => (JVal.num 0, JVal.num 0)

/-- Flat variant node extraction over JavaScript numbers. -/
def layoutNodesN (nsv : String → Option NanGeom) (nodes : List TVNode) :
    List (String × JVal × JVal) :=
  nodes.map (fun n =>
    let p := layoutNodePosN (nsv n.id) (Layout.getNodeDimensions n)
    (n.id, p.1, p.2))

end NanM

/-! # Claim-support definitions -/

/-- An edge value carrying at least two path points. -/
def HasTwoPoints (e : Layout.LayoutEdge) : Prop :=
  ∃ ps, e.points = some ps ∧ 2 ≤ ps.length

/-- A dimension assignment has exactly two size classes keyed on the
tensor category: a compact size for tensor leaves and a distinct
standard size for every other leaf. -/
def TwoSizeClasses (dims : String → ℚ × ℚ) : Prop :=
  ∃ compact standard : ℚ × ℚ, compact ≠ standard ∧
    ∀ t : String, dims t = if t = "tensor" then compact else standard

/-- A concrete source node whose right-center anchor is at (10, 10). -/
def cexSource : Layout.LayoutNode :=
  ⟨⟨"a", "a", "tensor", 1, none⟩, -150, -20, 160, 60⟩

/-- A concrete target node whose left-center anchor is at (100, 10). -/
def cexTarget : Layout.LayoutNode :=
  ⟨⟨"b", "b", "tensor", 1, none⟩, 100, -20, 160, 60⟩

/-! ### Specification predicates for the cycle analyzer (claim C1)

The correctness argument for `findBackEdges` is the classic
finishing-order argument: every adjacency edge not classified as a back
edge points to a node that leaves the DFS stack strictly earlier.  The
ghost finishing order is the list `fin`; it exists only in the
invariant, not in the traversal state. -/

/-- Invariant of the pending worklist.  Reading the frames from the top
of the stack, `above` collects the nodes of the frames already passed
(the active calls sitting deeper in the worklist than the current one
are its callees, which finish before it).  For each frame `(u, ns)` the
neighbors of `u` split as `pre ++ ns` with `ns` still pending, and every
already scanned neighbor was either recorded as a back edge, or has
finished, or sits above `u` on the stack. -/
def FramesOK (nodes : List TVNode) (edges : List TVEdge)
    (B fin : List String) :
    List (String × List String) → List String → Prop
  | [], _ => True
  | (u, ns) :: rest, above =>
      (∃ pre, outgoingOf nodes edges u = pre ++ ns ∧
        ∀ v ∈ pre, edgeKey u v ∈ B ∨ v ∈ fin ∨ v ∈ above) ∧
      FramesOK nodes edges B fin rest (u :: above)

/-- The finishing-order property: every adjacency edge out of a
finished node is either recorded in the back-edge set or leads to a node
that finished strictly earlier. -/
def FinOK (nodes : List TVNode) (edges : List TVEdge)
    (B fin : List String) : Prop :=
  ∀ u ∈ fin, ∀ v ∈ outgoingOf nodes edges u,
    edgeKey u v ∈ B ∨ (v ∈ fin ∧ fin.indexOf v < fin.indexOf u)

/-- The full machine invariant: the stack mirrors the frames, the
visited set splits into finished and on-stack nodes, and the scanned
neighbors satisfy `FramesOK`/`FinOK`. -/
structure DfsInv (nodes : List TVNode) (edges : List TVEdge)
    (frames : List (String × List String)) (st : DfsSt)
    (fin : List String) : Prop where
  stack_eq : st.inStack = frames.map Prod.fst
  stack_nodup : st.inStack.Nodup
  visited_iff : ∀ x, x ∈ st.visited ↔ (x ∈ fin ∨ x ∈ st.inStack)
  fin_nodup : fin.Nodup
  fin_disj : ∀ x ∈ fin, x ∉ st.inStack
  frames_ok : FramesOK nodes edges st.backEdges fin frames []
  fin_ok : FinOK nodes edges st.backEdges fin

/-- Consecutive edges of a walk are linked target-to-source. -/
def WalkChained (cyc : List TVEdge) : Prop :=
  List.Chain' (fun e f => e.target = f.source) cyc

/-- The walk returns to its starting node. -/
def WalkClosed (cyc : List TVEdge) : Prop :=
  cyc.getLast?.map (fun e => e.target) = cyc.head?.map (fun e => e.source)

/-- A non-empty closed walk through the given edge list. -/
def ClosedWalkIn (edges cyc : List TVEdge) : Prop :=
  cyc ≠ [] ∧ (∀ e ∈ cyc, e ∈ edges) ∧ WalkChained cyc ∧ WalkClosed cyc

/-- A directed cycle of the graph that survives the deletion of the
classified back edges: a non-empty closed walk whose edges all belong to
the input edge list, run between listed nodes, and none of which is in
the `findBackEdges` set. -/
def KeptClosedWalk (nodes : List TVNode) (edges : List TVEdge)
    (cyc : List TVEdge) : Prop :=
  ClosedWalkIn edges cyc ∧
    ∀ e ∈ cyc, e.source ∈ nodes.map (fun n => n.id) ∧
      edgeKey e.source e.target ∉ findBackEdges nodes edges

/-- A concrete function-category node, for counterexample graphs. -/
def tnode (s : String) : TVNode := ⟨s, s, "function", 1, none⟩

/-- A concrete edge of multiplicity 1, for counterexample graphs. -/
def tedge (s t : String) : TVEdge := ⟨s, t, 1⟩

/-! ## Containment support (claim C4) -/

/-- Box `b` encloses the laid-out node `n`: left/top bounds at most the
node's, right/bottom bounds at least the node's. -/
def boxContainsNode (b : Layout.SubgraphBox) (n : Layout.LayoutNode) : Prop :=
  b.x ≤ n.x ∧ b.y ≤ n.y ∧ n.x + n.width ≤ b.x + b.width ∧
    n.y + n.height ≤ b.y + b.height

/-- Box `b` encloses box `c`. -/
def boxContainsBox (b c : Layout.SubgraphBox) : Prop :=
  b.x ≤ c.x ∧ b.y ≤ c.y ∧ c.x + c.width ≤ b.x + b.width ∧
    c.y + c.height ≤ b.y + b.height

/-- A descending container chain below `x`: each element is a direct
child of its predecessor, the first a direct child of `x`. -/
def ChildChain (children : String → List String) : String → List String → Prop
  | _, [] => True
  | x, c :: p => c ∈ children x ∧ ChildChain children c p

/-- Container `s` owns a node: some laid-out node lives directly in `s`
or in a descendant of `s` (the non-emptiness test of the fallback
path). -/
def OwnsNode (sgs : List (String × SubgraphInfo))
    (lns : List Layout.LayoutNode) (s : String) : Prop :=
  ∃ n ∈ lns, n.node.subgraph = some s ∨
    ∃ t, n.node.subgraph = some t ∧ t ∈ Layout.getAllDescendantSubgraphs sgs s

/-- One step of the box-synthesis fold of `subgraphBoxesOf`. -/
def boxStep (sv : Solver) (sgs : List (String × SubgraphInfo))
    (layoutNodes : List Layout.LayoutNode)
    (boxes : List (String × Layout.SubgraphBox)) (p : String × SubgraphInfo) :
    List (String × Layout.SubgraphBox) :=
  let usable := match sv.node p.1 with
    | some dn => if dn.width ≠ 0 ∧ dn.height ≠ 0 then some dn else none
    | none => none
  match usable with
  | some dn =>
      mapSet boxes p.1
        ⟨dn.x - dn.width / 2, dn.y - dn.height / 2, dn.width, dn.height,
         p.2.label, p.2.depth, p.2.parent⟩
  | none =>
      match Layout.fallbackBox sgs layoutNodes boxes p.1 p.2 with
      | some b => mapSet boxes p.1 b
      | none => boxes

/-- The invariant of the box-synthesis fold (all-fallback case): every
stored box belongs to a declared container no shallower than anything
still unprocessed, its key is not among the unprocessed keys, its
container owns a node, it encloses every directly-owned node, and it
encloses every stored box of a descendant container; and every declared
container is still unprocessed, owns no node, or is stored. -/
def BoxesInv (sgs : List (String × SubgraphInfo))
    (lns : List Layout.LayoutNode) (rem : List (String × SubgraphInfo))
    (boxes : List (String × Layout.SubgraphBox)) : Prop :=
  (∀ p ∈ boxes,
    (∃ inf, (p.1, inf) ∈ sgs ∧ ∀ q ∈ rem, q.2.depth ≤ inf.depth) ∧
    p.1 ∉ rem.map Prod.fst ∧
    OwnsNode sgs lns p.1 ∧
    (∀ n ∈ lns, n.node.subgraph = some p.1 → boxContainsNode p.2 n) ∧
    (∀ d ∈ Layout.getAllDescendantSubgraphs sgs p.1, ∀ bd,
      Layout.mapGet boxes d = some bd → boxContainsBox p.2 bd)) ∧
  (∀ s inf, (s, inf) ∈ sgs →
    (s, inf) ∈ rem ∨ ¬ OwnsNode sgs lns s ∨ ∃ b, Layout.mapGet boxes s = some b)

/-- A container `g` whose sole declared node the solver places far away
from the small cluster rectangle it reports for `g` itself. -/
def cexGraph4 : GraphData :=
  ⟨[⟨"a", "a", "function", 2, some "g"⟩], [], [("g", ⟨"G", none, 1⟩)]⟩

/-- The solver answering a usable 10×10 cluster rectangle at the origin
for `g` and centering the node `a` at (500, 500). -/
def cexSolver4 : Solver :=
  ⟨fun s => if s = "g" then some ⟨0, 0, 10, 10⟩
    else if s = "a" then some ⟨500, 500, 0, 0⟩ else none,
   fun _ _ => none⟩

/-- The fallback box the solver-less layout produces for the container
of `cexGraph4`. -/
def wBox4 : Layout.SubgraphBox := ⟨-36, -54, 272, 170, "G", 1, none⟩

/-- All four fields of a rectangle are definite numbers. -/
def JRectAllNum (r : NanM.JRect) : Prop :=
  r.x.isNum = true ∧ r.y.isNum = true ∧ r.width.isNum = true ∧ r.height.isNum = true

/-- A solver answering only for the node `a`, with center (50, 40). -/
def cexSolver : Solver :=
  ⟨fun s => if s = "a" then some ⟨50, 40, 0, 0⟩ else none, fun _ _ => none⟩

/-- A solver with no geometry at all. -/
def noSolver : Solver := ⟨fun _ => none, fun _ _ => none⟩

/-- A one-tensor graph. -/
def cexGraph : GraphData := ⟨[⟨"a", "a", "tensor", 1, none⟩], [], []⟩

/-! # Theorems -/

/-- Sanity check of the cycle analyzer on the specification's scenario
`a→b, b→c, c→a`: exactly the stack-closing edge `c->a` is classified as
a back edge. -/
theorem findBackEdges_triangle :
    findBackEdges [tnode "a", tnode "b", tnode "c"]
      [tedge "a" "b", tedge "b" "c", tedge "c" "a"] = ["c->a"] := by
  simp [findBackEdges, dfsStep, dfsRun, outgoingOf, tnode, tedge, edgeKey]

/-! ## Claim C9: depth-padding monotonicity -/

/-- Claim C9: in the fallback box-computation path, the padding applied
at a shallower container depth is at least the padding applied at a
deeper depth, and the padding never falls below the fixed floor
`SUBGRAPH_PADDING = 20`. -/
theorem depthPadding_antitone_and_floor (d e : ℤ) (h : d ≤ e) :
    Layout.depthPadding e ≤ Layout.depthPadding d ∧
      Layout.SUBGRAPH_PADDING ≤ Layout.depthPadding d := by
  unfold Layout.depthPadding Layout.SUBGRAPH_PADDING
  constructor
  · have hmono : min (if d = 0 then 1 else (d : ℚ)) 5 ≤
        min (if e = 0 then 1 else (e : ℚ)) 5 := by
      rcases eq_or_ne d 0 with hd | hd <;> rcases eq_or_ne e 0 with he | he
      · simp [hd, he]
      · subst hd
        have he1 : (1 : ℚ) ≤ (e : ℚ) := by
          have : (0 : ℤ) < e := lt_of_le_of_ne h (Ne.symm he)
          exact_mod_cast this
        simp only [if_pos rfl, if_neg he]
        exact min_le_min he1 le_rfl
      · subst he
        have hd1 : (d : ℚ) ≤ 1 := by
          have : d ≤ 0 := h
          have : (d : ℚ) ≤ 0 := by exact_mod_cast this
          linarith
        simp only [if_pos rfl, if_neg hd]
        exact min_le_min hd1 le_rfl
      · have : (d : ℚ) ≤ (e : ℚ) := by exact_mod_cast h
        simp only [if_neg hd, if_neg he]
        exact min_le_min this le_rfl
    linarith
  · have : min (if d = 0 then 1 else (d : ℚ)) 5 ≤ 5 := min_le_right _ _
    linarith

/-- Witness for C9: at depths 2 ≤ 4, the padding is 32 ≥ 24 and both are
at least the floor 20. -/
theorem depthPadding_antitone_and_floor_witness :
    Layout.depthPadding 4 ≤ Layout.depthPadding 2 ∧
      Layout.SUBGRAPH_PADDING ≤ Layout.depthPadding 2 :=
  depthPadding_antitone_and_floor 2 4 (by norm_num)

/-! ## Claim C7: leaf node size classes -/

/-- Claim C7 (corrected): the flat variant has exactly two size classes
(tensor 160×60, every other category 200×80); the flow variant registers
every leaf with the single size 200×160, so there the two classes
coincide. -/
theorem nodeDimensions_size_classes :
    TwoSizeClasses (fun t => Layout.getNodeDimensions ⟨"", "", t, 0, none⟩) ∧
      ∀ t : String, Flow.getNodeDimensions t = (200, 160) := by
  constructor
  · refine ⟨(160, 60), (200, 80), by norm_num, fun t => ?_⟩
    unfold Layout.getNodeDimensions Layout.TENSOR_WIDTH Layout.TENSOR_HEIGHT
      Layout.NODE_WIDTH Layout.NODE_HEIGHT
    split <;> simp_all
  · intro t
    rfl

/-- Counterexample for C7 as stated: in the flow variant the tensor
category and the function category receive the same size, so there is no
compact tensor class distinct from the standard class. -/
theorem nodeDimensions_two_classes_false :
    Flow.getNodeDimensions "tensor" = Flow.getNodeDimensions "function" ∧
      ¬ TwoSizeClasses Flow.getNodeDimensions := by
  constructor
  · rfl
  · rintro ⟨compact, standard, hne, h⟩
    have h1 := h "tensor"
    have h2 := h "function"
    rw [if_pos rfl] at h1
    rw [if_neg (by decide : ¬ ("function" : String) = "tensor")] at h2
    exact hne (h1.symm.trans ((rfl :
      Flow.getNodeDimensions "tensor" = Flow.getNodeDimensions "function").trans h2))

/-! ## Claim C2: back-edge anchor geometry -/

/-- Counterexample for C2 as stated: for the (10,10) → (100,10) anchors,
the first intermediate point of the synthesized back-edge path is
(70, 10), whose y-coordinate equals min(10,10) = 10 and is not strictly
less than it. -/
theorem backEdgePath_strictly_above_false :
    Pt.mk 70 10 ∈ ((Layout.backEdgePoints cexSource cexTarget).drop 1).dropLast ∧
      ¬ (Pt.mk 70 10).y < min (10 : ℚ) 10 := by
  constructor
  · norm_num [Layout.backEdgePoints, cexSource, cexTarget, List.dropLast]
  · norm_num

/-- Claim C2 (amended): for a back edge whose source right-center anchor
is (10,10) and whose target left-center anchor is (100,10), the
synthesized path starts at (10,10), ends at (100,10), every intermediate
point has y-coordinate at most min(10,10), and the arc-top intermediate
points lie strictly above both endpoints. -/
theorem backEdgePath_geometry (s t : Layout.LayoutNode)
    (hsx : s.x + s.width = 10) (hsy : s.y + s.height / 2 = 10)
    (htx : t.x = 100) (hty : t.y + t.height / 2 = 10) :
    (Layout.backEdgePoints s t).head? = some ⟨10, 10⟩ ∧
      (Layout.backEdgePoints s t).getLast? = some ⟨100, 10⟩ ∧
      (∀ p ∈ ((Layout.backEdgePoints s t).drop 1).dropLast,
        p.y ≤ min (10 : ℚ) 10) ∧
      ∃ p ∈ ((Layout.backEdgePoints s t).drop 1).dropLast,
        p.y < min (10 : ℚ) 10 := by
  have hpts : Layout.backEdgePoints s t =
      [⟨10, 10⟩, ⟨70, 10⟩, ⟨70, -50⟩, ⟨40, -50⟩, ⟨40, 10⟩, ⟨100, 10⟩] := by
    unfold Layout.backEdgePoints
    rw [hsx, hsy, htx, hty]
    norm_num
  rw [hpts]
  refine ⟨rfl, rfl, ?_, ?_⟩
  · intro p hp
    simp only [List.dropLast, List.drop, List.mem_cons, List.not_mem_nil,
      or_false] at hp
    rcases hp with h | h | h | h <;> subst h <;> norm_num
  · exact ⟨⟨70, -50⟩, by simp [List.dropLast], by norm_num⟩

/-- Witness for C2: the amended geometry at the concrete anchor nodes. -/
theorem backEdgePath_geometry_witness :
    (Layout.backEdgePoints cexSource cexTarget).head? = some ⟨10, 10⟩ ∧
      (Layout.backEdgePoints cexSource cexTarget).getLast? = some ⟨100, 10⟩ ∧
      (∀ p ∈ ((Layout.backEdgePoints cexSource cexTarget).drop 1).dropLast,
        p.y ≤ min (10 : ℚ) 10) ∧
      ∃ p ∈ ((Layout.backEdgePoints cexSource cexTarget).drop 1).dropLast,
        p.y < min (10 : ℚ) 10 :=
  backEdgePath_geometry cexSource cexTarget (by norm_num [cexSource])
    (by norm_num [cexSource]) (by norm_num [cexTarget]) (by norm_num [cexTarget])

/-! ## Claim C10: `generateEdgePath` emptiness and start point -/

/-- A path string that starts with an M command is not empty. -/
theorem mPath_ne_empty (s : String) : ("M " ++ s) ≠ "" := by
  intro h
  have h2 := congrArg String.length h
  rw [String.length_append] at h2
  simp at h2
  exact (by decide : ¬ "M ".length = 0) h2.1

/-- With at least two points, the generated path begins with the M
command of the first point. -/
theorem generateEdgePath_prefix (e : Layout.LayoutEdge) (p0 p1 : Pt)
    (tl : List Pt) (hp : e.points = some (p0 :: p1 :: tl)) :
    ∃ rest, Layout.generateEdgePath e = "M " ++ Layout.rs p0 ++ rest := by
  unfold Layout.generateEdgePath
  rw [hp]
  dsimp only
  split_ifs with h1 h2 h3
  · exact ⟨" L " ++ Layout.rs ((p0 :: p1 :: tl).getLast (by simp)),
      by rw [String.append_assoc]⟩
  · refine ⟨" Q " ++ Layout.rs p1 ++ ", " ++
      Layout.rs ((p0 :: p1 :: tl).getLast (by simp)), ?_⟩
    simp [String.append_assoc]
  · exact ⟨Layout.qChain (p1 :: tl), rfl⟩
  · refine ⟨" C " ++
      toString (p0.x + (((p0 :: p1 :: tl).getLast (by simp)).x - p0.x) * (1 / 2)) ++
      " " ++ toString p0.y ++ ", " ++
      toString (p0.x + (((p0 :: p1 :: tl).getLast (by simp)).x - p0.x) * (1 / 2)) ++
      " " ++ toString (((p0 :: p1 :: tl).getLast (by simp)).y) ++ ", " ++
      Layout.rs ((p0 :: p1 :: tl).getLast (by simp)), ?_⟩
    simp [String.append_assoc]

/-- Claim C10: `generateEdgePath` returns the empty string exactly when
the edge's point list is missing or holds fewer than two points, and
with at least two points the returned path is the non-empty string that
begins at the first point. -/
theorem generateEdgePath_spec (e : Layout.LayoutEdge) :
    (Layout.generateEdgePath e = "" ↔ ¬ HasTwoPoints e) ∧
      (∀ p0 tl, e.points = some (p0 :: tl) → tl ≠ [] →
        ∃ rest, Layout.generateEdgePath e = "M " ++ Layout.rs p0 ++ rest ∧
          Layout.generateEdgePath e ≠ "") := by
  constructor
  · constructor
    · intro hempty htwo
      obtain ⟨ps, hps, hlen⟩ := htwo
      match ps, hlen with
      | p0 :: p1 :: tl, _ =>
        obtain ⟨rest, hrest⟩ := generateEdgePath_prefix e p0 p1 tl hps
        exact mPath_ne_empty _ (hrest ▸ hempty)
    · intro hnot
      unfold Layout.generateEdgePath
      match hps : e.points with
      | none => rfl
      | some [] => rfl
      | some [_] => rfl
      | some (p0 :: p1 :: tl) =>
        exact absurd ⟨p0 :: p1 :: tl, hps, by simp⟩ hnot
  · intro p0 tl hp htl
    match tl, htl with
    | p1 :: tl2, _ =>
      obtain ⟨rest, hrest⟩ := generateEdgePath_prefix e p0 p1 tl2 hp
      exact ⟨rest, hrest, by rw [hrest]; exact mPath_ne_empty _⟩


/-! ## Claim C6: numeric fallbacks for undefined/NaN solver output -/

/-- A property of the accumulator preserved by every fold step holds of
the fold's result. -/
theorem foldl_preserves {α β : Type} (Q : β → Prop) (f : β → α → β)
    (l : List α) (init : β) (h0 : Q init)
    (hstep : ∀ b a, Q b → a ∈ l → Q (f b a)) : Q (l.foldl f init) := by
  induction l generalizing init with
  | nil => exact h0
  | cons a l ih =>
      exact ih (f init a) (hstep _ _ h0 (List.mem_cons_self _ _))
        (fun b a2 hb ha2 => hstep b a2 hb (List.mem_cons_of_mem _ ha2))

/-- The `safeNum` guard always yields a definite number. -/
theorem safeNum_eq_num (v : NanM.JVal) (fb : ℚ) :
    ∃ q, NanM.safeNum v fb = NanM.JVal.num q := by
  cases v with
  | undef => exact ⟨fb, rfl⟩
  | nan => exact ⟨fb, rfl⟩
  | num q => exact ⟨q, rfl⟩

/-- A definite value is exactly a `num`. -/
theorem isNum_iff_exists (v : NanM.JVal) :
    v.isNum = true ↔ ∃ q, v = NanM.JVal.num q := by
  cases v <;> simp [NanM.JVal.isNum]

theorem subgraphAbsPos_allNum (dn : NanM.NanGeom) :
    JRectAllNum (NanM.subgraphAbsPos dn) := by
  obtain ⟨a, ha⟩ := safeNum_eq_num dn.x 0
  obtain ⟨b, hb⟩ := safeNum_eq_num dn.y 0
  obtain ⟨w, hw⟩ := safeNum_eq_num dn.width 200
  obtain ⟨h, hh⟩ := safeNum_eq_num dn.height 100
  simp [JRectAllNum, NanM.subgraphAbsPos, ha, hb, hw, hh, NanM.JVal.sub,
    NanM.JVal.half, NanM.JVal.isNum]

theorem nodeAbsPos_allNum (dn : Option NanM.NanGeom) (dims : ℚ × ℚ) :
    JRectAllNum (NanM.nodeAbsPos dn dims) := by
  cases dn with
  | none => simp [JRectAllNum, NanM.nodeAbsPos, NanM.JVal.isNum]
  | some d =>
      obtain ⟨a, ha⟩ := safeNum_eq_num d.x 0
      obtain ⟨b, hb⟩ := safeNum_eq_num d.y 0
      simp [JRectAllNum, NanM.nodeAbsPos, ha, hb, NanM.JVal.sub, NanM.JVal.isNum]

/-- `mapSet` preserves a property of all stored values. -/
theorem mapSet_forall {α : Type} (P : α → Prop) (m : List (String × α))
    (k : String) (v : α) (hm : ∀ p ∈ m, P p.2) (hv : P v) :
    ∀ p ∈ mapSet m k v, P p.2 := by
  intro p hp
  unfold mapSet at hp
  split at hp
  · obtain ⟨q, hq, hpq⟩ := List.mem_map.mp hp
    by_cases hk : q.1 = k
    · rw [if_pos hk] at hpq
      rw [← hpq]
      exact hv
    · rw [if_neg hk] at hpq
      rw [← hpq]
      exact hm q hq
  · rcases List.mem_append.mp hp with h | h
    · exact hm p h
    · rw [List.mem_singleton.mp h]
      exact hv

/-- Every rectangle stored in the flow `absolutePositions` map has
definite fields. -/
theorem absolutePositionsN_allNum (nsv : String → Option NanM.NanGeom)
    (g : GraphData) : ∀ p ∈ NanM.absolutePositionsN nsv g, JRectAllNum p.2 := by
  unfold NanM.absolutePositionsN
  refine foldl_preserves
      (fun (m : List (String × NanM.JRect)) => ∀ p ∈ m, JRectAllNum p.2) _ _ _ ?_ ?_
  · refine foldl_preserves
      (fun (m : List (String × NanM.JRect)) => ∀ p ∈ m, JRectAllNum p.2) _ _ _ ?_ ?_
    · intro p hp
      simp at hp
    · intro m p hm _
      cases hs : nsv p.1 with
      | none => exact hm
      | some dn => exact mapSet_forall _ _ _ _ hm (subgraphAbsPos_allNum dn)
  · intro m n hm _
    exact mapSet_forall _ _ _ _ hm (nodeAbsPos_allNum _ _)

/-- A successful map lookup returns a stored value. -/
theorem mapGet_some_mem {α : Type} (m : List (String × α)) (k : String)
    (v : α) (h : Layout.mapGet m k = some v) : ∃ p ∈ m, p.2 = v := by
  unfold Layout.mapGet at h
  cases hf : m.find? (fun p => p.1 = k) with
  | none => rw [hf] at h; simp at h
  | some p =>
      rw [hf] at h
      simp at h
      exact ⟨p, List.mem_of_find?_eq_some hf, h⟩

/-- A definite extent clamped by `Math.max(v + margin, minimum)` stays
definite. -/
theorem canvas_clamp_isNum (v : NanM.JVal) (c d : ℚ) (h : v.isNum = true) :
    ((v.add (NanM.JVal.num c)).jmax (NanM.JVal.num d)).isNum = true := by
  obtain ⟨q, rfl⟩ := (isNum_iff_exists v).mp h
  rfl

/-- Claim C6 (amended): in `computeFlowLayout`, for every solver answer
(each reported coordinate or size independently undefined, NaN or a
number), every emitted node position and size and both canvas dimensions
are definite numbers: the `safeNum` fallbacks stop undefined/NaN from
reaching the output.  (The flat `computeLayout` lacks such guards; see
the counterexample.) -/
theorem flow_numeric_fallbacks (nsv : String → Option NanM.NanGeom)
    (g : GraphData) :
    (∀ e ∈ NanM.flowNodeGeomsN nsv g,
      e.2.1.isNum = true ∧ e.2.2.1.isNum = true ∧
        e.2.2.2.1.isNum = true ∧ e.2.2.2.2.isNum = true) ∧
      (NanM.canvasN nsv g).1.isNum = true ∧
        (NanM.canvasN nsv g).2.isNum = true := by
  have habs := absolutePositionsN_allNum nsv g
  refine ⟨?_, ?_, ?_⟩
  · unfold NanM.flowNodeGeomsN
    dsimp only
    refine foldl_preserves
      (fun (acc : List (String × NanM.JVal × NanM.JVal × NanM.JVal × NanM.JVal)) =>
        ∀ e ∈ acc, e.2.1.isNum = true ∧ e.2.2.1.isNum = true ∧
        e.2.2.2.1.isNum = true ∧ e.2.2.2.2.isNum = true) _ _ _ ?_ ?_
    · refine foldl_preserves
        (fun (acc : List (String × NanM.JVal × NanM.JVal × NanM.JVal × NanM.JVal)) =>
          ∀ e ∈ acc, e.2.1.isNum = true ∧ e.2.2.1.isNum = true ∧
          e.2.2.2.1.isNum = true ∧ e.2.2.2.2.isNum = true) _ _ _ ?_ ?_
      · intro e he
        simp at he
      · intro acc p hacc _
        cases hg : Layout.mapGet (NanM.absolutePositionsN nsv g) p.1 with
        | none => dsimp only; exact hacc
        | some absPos =>
            dsimp only
            intro e he
            rcases List.mem_append.mp he with h | h
            · exact hacc e h
            · obtain ⟨q, hq, hq2⟩ := mapGet_some_mem _ _ _ hg
              obtain ⟨_, _, hw, hh⟩ := hq2 ▸ habs q hq
              obtain ⟨q1, hq1⟩ := safeNum_eq_num
                (NanM.relPosN absPos (Flow.parentIdOf g.subgraphs p.2.parent)
                  (NanM.absolutePositionsN nsv g)).1 0
              obtain ⟨q2, hq2'⟩ := safeNum_eq_num
                (NanM.relPosN absPos (Flow.parentIdOf g.subgraphs p.2.parent)
                  (NanM.absolutePositionsN nsv g)).2 0
              rw [List.mem_singleton.mp h]
              exact ⟨by rw [hq1]; rfl, by rw [hq2']; rfl, hw, hh⟩
    · intro acc n hacc _
      cases hg : Layout.mapGet (NanM.absolutePositionsN nsv g) n.id with
      | none => dsimp only; exact hacc
      | some absPos =>
          dsimp only
          intro e he
          rcases List.mem_append.mp he with h | h
          · exact hacc e h
          · obtain ⟨q1, hq1⟩ := safeNum_eq_num
              (NanM.relPosN absPos (Flow.parentIdOf g.subgraphs n.subgraph)
                (NanM.absolutePositionsN nsv g)).1 0
            obtain ⟨q2, hq2'⟩ := safeNum_eq_num
              (NanM.relPosN absPos (Flow.parentIdOf g.subgraphs n.subgraph)
                (NanM.absolutePositionsN nsv g)).2 0
            rw [List.mem_singleton.mp h]
            exact ⟨by rw [hq1]; rfl, by rw [hq2']; rfl, rfl, rfl⟩
  · unfold NanM.canvasN
    dsimp only
    refine canvas_clamp_isNum _ _ _ ?_
    refine foldl_preserves (fun (v : NanM.JVal) => v.isNum = true) _ _ _ rfl ?_
    intro acc p hacc hp
    obtain ⟨qa, rfl⟩ := (isNum_iff_exists acc).mp hacc
    obtain ⟨hx, _, hw, _⟩ := habs p hp
    obtain ⟨qx, hqx⟩ := (isNum_iff_exists _).mp hx
    obtain ⟨qw, hqw⟩ := (isNum_iff_exists _).mp hw
    rw [hqx, hqw]
    rfl
  · unfold NanM.canvasN
    dsimp only
    refine canvas_clamp_isNum _ _ _ ?_
    refine foldl_preserves (fun (v : NanM.JVal) => v.isNum = true) _ _ _ rfl ?_
    intro acc p hacc hp
    obtain ⟨qa, rfl⟩ := (isNum_iff_exists acc).mp hacc
    obtain ⟨_, hy, _, hh⟩ := habs p hp
    obtain ⟨qy, hqy⟩ := (isNum_iff_exists _).mp hy
    obtain ⟨qh, hqh⟩ := (isNum_iff_exists _).mp hh
    rw [hqy, hqh]
    rfl

/-- Counterexample for C6 as stated: the flat `computeLayout` projection
turns a solver record with a NaN x-coordinate into a NaN output node
coordinate, so the claim fails for the flat variant. -/
theorem layout_nan_propagates :
    NanM.layoutNodesN
        (fun _ => some ⟨NanM.JVal.nan, NanM.JVal.num 40,
          NanM.JVal.num 200, NanM.JVal.num 80⟩)
        [tnode "a"]
      = [("a", NanM.JVal.nan, NanM.JVal.num 0)] ∧
      NanM.JVal.nan.isNum = false := by
  have hd : Layout.getNodeDimensions
      ⟨"a", "a", "function", 1, none⟩ = (200, 80) := rfl
  constructor
  · norm_num [NanM.layoutNodesN, NanM.layoutNodePosN, tnode, hd, NanM.JVal.sub]
  · rfl

/-! ## Claim C8: edge registration with the solver -/

/-- A skip-or-append loop is a filter-and-map. -/
theorem foldl_skip_append {α β : Type} (p : α → Prop) [DecidablePred p]
    (f : α → β) (l : List α) (acc : List β) :
    l.foldl (fun acc e => if p e then acc else acc ++ [f e]) acc
      = acc ++ (l.filter (fun e => decide (¬ p e))).map f := by
  induction l generalizing acc with
  | nil => simp
  | cons a l ih =>
      by_cases h : p a
      · simp [h, ih]
      · simp [h, ih]

/-- Claim C8 (amended): both variants register exactly the edges not
classified as back edges, in input order, and a registered edge's weight
is its multiplicity count unless the count is zero (falsy), which the
`count || 1` fallback turns into weight 1. -/
theorem edge_registration (g : GraphData) :
    (Layout.buildSolverInput g).edges = Layout.registeredEdges g.nodes g.edges ∧
      (Flow.buildFlowSolverInput g).edges = Layout.registeredEdges g.nodes g.edges ∧
      Layout.registeredEdges g.nodes g.edges =
        (g.edges.filter (fun e =>
          decide (¬ edgeKey e.source e.target ∈ findBackEdges g.nodes g.edges))).map
          (fun e => (e.source, e.target, if e.count = 0 then 1 else e.count)) ∧
      ∀ e ∈ g.edges,
        ((e.source, e.target, if e.count = 0 then 1 else e.count)
            ∈ Layout.registeredEdges g.nodes g.edges
          ↔ edgeKey e.source e.target ∉ findBackEdges g.nodes g.edges) := by
  have hchar : Layout.registeredEdges g.nodes g.edges =
      (g.edges.filter (fun e =>
        decide (¬ edgeKey e.source e.target ∈ findBackEdges g.nodes g.edges))).map
        (fun e => (e.source, e.target, if e.count = 0 then 1 else e.count)) := by
    unfold Layout.registeredEdges
    rw [foldl_skip_append
      (fun e => edgeKey e.source e.target ∈ findBackEdges g.nodes g.edges)
      (fun e => (e.source, e.target, if e.count = 0 then 1 else e.count))
      g.edges []]
    rfl
  refine ⟨rfl, rfl, hchar, ?_⟩
  intro e he
  rw [hchar]
  constructor
  · intro hmem
    obtain ⟨e2, he2, heq⟩ := List.mem_map.mp hmem
    have hf := (List.mem_filter.mp he2).2
    simp only [decide_not, Bool.not_eq_true', decide_eq_false_iff_not] at hf
    have hs : e2.source = e.source := congrArg (fun t => t.1) heq
    have ht : e2.target = e.target := by
      have := congrArg (fun t => t.2.1) heq
      exact this
    rw [← hs, ← ht]
    exact hf
  · intro hback
    refine List.mem_map.mpr ⟨e, List.mem_filter.mpr ⟨he, ?_⟩, rfl⟩
    simp only [decide_not, Bool.not_eq_true', decide_eq_false_iff_not]
    exact hback

/-- Counterexample for C8 as stated: an input edge with multiplicity
count 0 is registered with weight 1, not with its count. -/
theorem edge_registration_weight_false :
    (Layout.buildSolverInput ⟨[tnode "a", tnode "b"], [⟨"a", "b", 0⟩], []⟩).edges
        = [("a", "b", 1)] ∧
      ("a", "b", (0 : ℕ)) ∉
        (Layout.buildSolverInput ⟨[tnode "a", tnode "b"], [⟨"a", "b", 0⟩], []⟩).edges := by
  have h : (Layout.buildSolverInput
      ⟨[tnode "a", tnode "b"], [⟨"a", "b", 0⟩], []⟩).edges = [("a", "b", 1)] := by
    simp [Layout.buildSolverInput, Layout.registeredEdges, findBackEdges,
      dfsStep, dfsRun, outgoingOf, tnode, edgeKey]
  refine ⟨h, ?_⟩
  rw [h]
  simp

/-! ## Claim C5: canvas sizing and the empty-graph short-circuit -/

/-- A componentwise pair fold splits into two folds. -/
theorem foldl_pair_split {α : Type} (f1 f2 : ℚ → α → ℚ) (l : List α)
    (a b : ℚ) :
    l.foldl (fun (acc : ℚ × ℚ) x => (f1 acc.1 x, f2 acc.2 x)) (a, b)
      = (l.foldl f1 a, l.foldl f2 b) := by
  induction l generalizing a b with
  | nil => rfl
  | cons x l ih => exact ih (f1 a x) (f2 b x)

/-- `max` folds commute with `map`. -/
theorem foldl_max_map {α : Type} (f : α → ℚ) (l : List α) (a : ℚ) :
    l.foldl (fun acc x => max acc (f x)) a = (l.map f).foldl max a := by
  induction l generalizing a with
  | nil => rfl
  | cons x l ih => exact ih (max a (f x))

/-- Two chained max folds compute the maximum over 0 and both mapped
lists. -/
theorem two_fold_max {α β : Type} (f : α → ℚ) (g2 : β → ℚ)
    (l1 : List α) (l2 : List β) :
    List.foldl (fun acc y => max acc (g2 y))
        (List.foldl (fun acc x => max acc (f x)) 0 l1) l2
      = Layout.qMax (0 :: (l1.map f ++ l2.map g2)) := by
  rw [foldl_max_map f l1 0, foldl_max_map g2 l2]
  simp only [Layout.qMax]
  rw [List.foldl_append]

/-- The extent fold of `computeLayout` computes the maximum over 0 and
every node's and box's right/bottom edge. -/
theorem canvasExtent_eq (lns : List Layout.LayoutNode)
    (boxes : List (String × Layout.SubgraphBox)) :
    Layout.canvasExtent lns boxes =
      (Layout.qMax (0 :: (lns.map (fun n => n.x + n.width)
          ++ boxes.map (fun p => p.2.x + p.2.width))),
       Layout.qMax (0 :: (lns.map (fun n => n.y + n.height)
          ++ boxes.map (fun p => p.2.y + p.2.height)))) := by
  unfold Layout.canvasExtent
  dsimp only
  rw [foldl_pair_split (fun acc (n : Layout.LayoutNode) => max acc (n.x + n.width))
    (fun acc n => max acc (n.y + n.height))]
  rw [foldl_pair_split (fun acc (p : String × Layout.SubgraphBox) => max acc (p.2.x + p.2.width))
    (fun acc p => max acc (p.2.y + p.2.height))]
  rw [two_fold_max (fun (n : Layout.LayoutNode) => n.x + n.width)
      (fun (p : String × Layout.SubgraphBox) => p.2.x + p.2.width) lns boxes,
    two_fold_max (fun (n : Layout.LayoutNode) => n.y + n.height)
      (fun (p : String × Layout.SubgraphBox) => p.2.y + p.2.height) lns boxes]

/-- Claim C5 (corrected): in the flat variant a non-empty graph's canvas
is exactly the maximal right/bottom extent of nodes and boxes (floored
at 0 by the fold's start) plus the 100-pixel margin, with no further
minimum; the flow variant clamps the same quantity below by 800×600; and
both variants short-circuit an empty graph to the fixed 800×600 result,
for every solver oracle (the solver is never consulted). -/
theorem canvas_sizing (sv : Solver) (g : GraphData) :
    (g.nodes ≠ [] →
      (Layout.computeLayout sv g).width
          = Layout.qMax (0 :: ((Layout.computeLayout sv g).nodes.map
              (fun n => n.x + n.width)
            ++ (Layout.computeLayout sv g).subgraphBoxes.map
              (fun p => p.2.x + p.2.width))) + 100 ∧
        (Layout.computeLayout sv g).height
          = Layout.qMax (0 :: ((Layout.computeLayout sv g).nodes.map
              (fun n => n.y + n.height)
            ++ (Layout.computeLayout sv g).subgraphBoxes.map
              (fun p => p.2.y + p.2.height))) + 100 ∧
        (Flow.computeFlowLayout sv g).width
          = max (Layout.qMax (0 :: (Flow.absolutePositionsOf sv g).map
              (fun p => p.2.x + p.2.width)) + 100) 800 ∧
        (Flow.computeFlowLayout sv g).height
          = max (Layout.qMax (0 :: (Flow.absolutePositionsOf sv g).map
              (fun p => p.2.y + p.2.height)) + 100) 600) ∧
      (∀ es sgs, Layout.computeLayout sv ⟨[], es, sgs⟩
          = ⟨[], [], [], 800, 600⟩) ∧
      (∀ es sgs, Flow.computeFlowLayout sv ⟨[], es, sgs⟩
          = ⟨[], [], 800, 600⟩) := by
  refine ⟨?_, fun es sgs => rfl, fun es sgs => rfl⟩
  intro hne
  have hne2 : g.nodes.isEmpty = false := by
    cases hn : g.nodes with
    | nil => exact absurd hn hne
    | cons a l => rfl
  constructor
  · unfold Layout.computeLayout
    rw [hne2, if_neg (show ¬ (false = true) by decide)]
    dsimp only
    rw [canvasExtent_eq]
  constructor
  · unfold Layout.computeLayout
    rw [hne2, if_neg (show ¬ (false = true) by decide)]
    dsimp only
    rw [canvasExtent_eq]
  constructor
  · unfold Flow.computeFlowLayout
    rw [hne2, if_neg (show ¬ (false = true) by decide)]
    dsimp only
    rw [foldl_max_map (fun (p : String × Rect) => p.2.x + p.2.width)]
    rfl
  · unfold Flow.computeFlowLayout
    rw [hne2, if_neg (show ¬ (false = true) by decide)]
    dsimp only
    rw [foldl_max_map (fun (p : String × Rect) => p.2.y + p.2.height)]
    rfl

/-- Witness for C5 at the concrete one-tensor graph and solver. -/
theorem canvas_sizing_witness :
    ((cexGraph.nodes ≠ [] →
      (Layout.computeLayout cexSolver cexGraph).width
          = Layout.qMax (0 :: ((Layout.computeLayout cexSolver cexGraph).nodes.map
              (fun n => n.x + n.width)
            ++ (Layout.computeLayout cexSolver cexGraph).subgraphBoxes.map
              (fun p => p.2.x + p.2.width))) + 100 ∧
        (Layout.computeLayout cexSolver cexGraph).height
          = Layout.qMax (0 :: ((Layout.computeLayout cexSolver cexGraph).nodes.map
              (fun n => n.y + n.height)
            ++ (Layout.computeLayout cexSolver cexGraph).subgraphBoxes.map
              (fun p => p.2.y + p.2.height))) + 100 ∧
        (Flow.computeFlowLayout cexSolver cexGraph).width
          = max (Layout.qMax (0 :: (Flow.absolutePositionsOf cexSolver cexGraph).map
              (fun p => p.2.x + p.2.width)) + 100) 800 ∧
        (Flow.computeFlowLayout cexSolver cexGraph).height
          = max (Layout.qMax (0 :: (Flow.absolutePositionsOf cexSolver cexGraph).map
              (fun p => p.2.y + p.2.height)) + 100) 600) ∧
      (∀ es sgs, Layout.computeLayout cexSolver ⟨[], es, sgs⟩
          = ⟨[], [], [], 800, 600⟩) ∧
      (∀ es sgs, Flow.computeFlowLayout cexSolver ⟨[], es, sgs⟩
          = ⟨[], [], 800, 600⟩)) :=
  canvas_sizing cexSolver cexGraph

/-- Counterexample for C5 as stated: a non-empty graph in the flat
variant can produce a canvas (230×170) far below the 800×600 minimum the
empty graph receives, so the canvas is not "never smaller than a
configured minimum". -/
theorem canvas_minimum_false :
    (Layout.computeLayout cexSolver cexGraph).width = 230 ∧
      (Layout.computeLayout cexSolver cexGraph).height = 170 ∧
      (Layout.computeLayout cexSolver ⟨[], [], []⟩).width = 800 ∧
      ¬ (800 : ℚ) ≤ (Layout.computeLayout cexSolver cexGraph).width := by
  have h : Layout.computeLayout cexSolver cexGraph =
      ⟨[⟨⟨"a", "a", "tensor", 1, none⟩, -30, 10, 160, 60⟩], [], [], 230, 170⟩ := by
    simp only [Layout.computeLayout, cexGraph, cexSolver]
    norm_num [findBackEdges, Layout.layoutNodesOf, Layout.getNodeDimensions,
      Layout.TENSOR_WIDTH, Layout.TENSOR_HEIGHT, Layout.nodeMapOf,
      Layout.subgraphBoxesOf, Layout.sortSubgraphsDesc, List.insertionSort,
      Layout.canvasExtent, mapSet, dfsStep, dfsRun, outgoingOf]
  refine ⟨by rw [h], by rw [h], rfl, by rw [h]; norm_num⟩

/-! ## Claim C3: edges with missing endpoints -/

/-- Mapping every element to `none` reduces to the empty list. -/
theorem reduceOption_map_none {α β : Type} (f : α → Option β) (l : List α)
    (h : ∀ e ∈ l, f e = none) : (l.map f).reduceOption = [] := by
  induction l with
  | nil => rfl
  | cons a l ih =>
      rw [List.map_cons, h a (List.mem_cons_self _ _)]
      simpa [List.reduceOption] using ih (fun e he => h e (List.mem_cons_of_mem _ he))

/-- `mapSet` preserves a property of all stored pairs. -/
theorem mapSet_forall_pair {α : Type} (P : String × α → Prop)
    (m : List (String × α)) (k : String) (v : α)
    (hm : ∀ p ∈ m, P p) (hv : P (k, v)) : ∀ p ∈ mapSet m k v, P p := by
  intro p hp
  unfold mapSet at hp
  split at hp
  · obtain ⟨q, hq, hpq⟩ := List.mem_map.mp hp
    by_cases hk : q.1 = k
    · rw [if_pos hk] at hpq
      rw [← hpq]
      exact hv
    · rw [if_neg hk] at hpq
      rw [← hpq]
      exact hm q hq
  · rcases List.mem_append.mp hp with h | h
    · exact hm p h
    · rw [List.mem_singleton.mp h]
      exact hv

/-- Every key of the node map is the id of one of the laid-out nodes. -/
theorem nodeMapOf_keys (lns : List Layout.LayoutNode) :
    ∀ p ∈ Layout.nodeMapOf lns, ∃ ln ∈ lns, p.1 = ln.node.id := by
  unfold Layout.nodeMapOf
  refine foldl_preserves
    (fun (m : List (String × Layout.LayoutNode)) =>
      ∀ p ∈ m, ∃ ln ∈ lns, p.1 = ln.node.id) _ _ _ ?_ ?_
  · intro p hp
    simp at hp
  · intro m n hm hn
    exact mapSet_forall_pair _ _ _ _ hm ⟨n, hn, rfl⟩

/-- A successful lookup pins the key of a stored pair. -/
theorem mapGet_some_key {α : Type} (m : List (String × α)) (k : String)
    (v : α) (h : Layout.mapGet m k = some v) : ∃ p ∈ m, p.1 = k := by
  unfold Layout.mapGet at h
  cases hf : m.find? (fun p => p.1 = k) with
  | none => rw [hf] at h; simp at h
  | some p =>
      refine ⟨p, List.mem_of_find?_eq_some hf, ?_⟩
      have := List.find?_some hf
      simpa using this

/-- A key found in the node map is an input node id. -/
theorem mapGet_nodeMap_mem_ids (sv : Solver) (nodes : List TVNode)
    (k : String) (v : Layout.LayoutNode)
    (h : Layout.mapGet (Layout.nodeMapOf (Layout.layoutNodesOf sv nodes)) k = some v) :
    k ∈ nodes.map (fun n => n.id) := by
  obtain ⟨p, hp, hpk⟩ := mapGet_some_key _ _ _ h
  obtain ⟨ln, hln, hid⟩ := nodeMapOf_keys _ p hp
  obtain ⟨n, hn, hfn⟩ := List.mem_map.mp (by
    unfold Layout.layoutNodesOf at hln
    exact hln)
  have hnode : ln.node = n := by
    rw [← hfn]
    cases sv.node n.id <;> rfl
  rw [← hpk, hid, hnode]
  exact List.mem_map.mpr ⟨n, hn, rfl⟩

/-- A routed edge keeps its endpoints, and both resolved in the map. -/
theorem layoutEdgeOf_some (sv : Solver) (be : List String)
    (nm : List (String × Layout.LayoutNode)) (e : TVEdge)
    (oe : Layout.LayoutEdge) (h : Layout.layoutEdgeOf sv be nm e = some oe) :
    oe.source = e.source ∧ oe.target = e.target ∧
      (∃ sn, Layout.mapGet nm e.source = some sn) ∧
      (∃ tn, Layout.mapGet nm e.target = some tn) := by
  unfold Layout.layoutEdgeOf at h
  cases hs : Layout.mapGet nm e.source with
  | none => rw [hs] at h; cases ht : Layout.mapGet nm e.target <;>
      rw [ht] at h <;> simp at h
  | some sn =>
      cases ht : Layout.mapGet nm e.target with
      | none => rw [hs, ht] at h; simp at h
      | some tn =>
          rw [hs, ht] at h
          dsimp only at h
          have hst : oe.source = e.source ∧ oe.target = e.target := by
            split at h <;> (try split at h) <;> (try split at h) <;>
              (cases h; exact ⟨rfl, rfl⟩)
          exact ⟨hst.1, hst.2, ⟨sn, rfl⟩, ⟨tn, rfl⟩⟩

/-- An edge with an unresolved endpoint is routed to `null`. -/
theorem layoutEdgeOf_none (sv : Solver) (be : List String)
    (nm : List (String × Layout.LayoutNode)) (e : TVEdge)
    (h : Layout.mapGet nm e.source = none ∨ Layout.mapGet nm e.target = none) :
    Layout.layoutEdgeOf sv be nm e = none := by
  unfold Layout.layoutEdgeOf
  rcases h with h | h
  · rw [h]
  · rw [h]
    cases Layout.mapGet nm e.source <;> rfl

/-- Claim C3 (corrected): in the flat variant the output edge list is
the independent per-edge routing of the input list, every routed edge
has both endpoints among the node ids, and an edge with a missing
endpoint routes to `null` and is filtered out; the flow variant instead
passes every input edge through to its output, missing endpoints
included, without failing. -/
theorem edge_resolution (sv : Solver) (g : GraphData) :
    ((Layout.computeLayout sv g).edges
        = (g.edges.map (Layout.layoutEdgeOf sv (findBackEdges g.nodes g.edges)
            (Layout.nodeMapOf (Layout.layoutNodesOf sv g.nodes)))).reduceOption) ∧
      (∀ oe ∈ (Layout.computeLayout sv g).edges,
        oe.source ∈ g.nodes.map (fun n => n.id) ∧
          oe.target ∈ g.nodes.map (fun n => n.id)) ∧
      (∀ e ∈ g.edges,
        (e.source ∉ g.nodes.map (fun n => n.id) ∨
          e.target ∉ g.nodes.map (fun n => n.id)) →
        Layout.layoutEdgeOf sv (findBackEdges g.nodes g.edges)
          (Layout.nodeMapOf (Layout.layoutNodesOf sv g.nodes)) e = none) ∧
      (g.nodes ≠ [] →
        (Flow.computeFlowLayout sv g).edges.map (fun fe => (fe.source, fe.target))
          = g.edges.map (fun e => (e.source, e.target))) := by
  have hchar : (Layout.computeLayout sv g).edges
      = (g.edges.map (Layout.layoutEdgeOf sv (findBackEdges g.nodes g.edges)
          (Layout.nodeMapOf (Layout.layoutNodesOf sv g.nodes)))).reduceOption := by
    unfold Layout.computeLayout
    cases hn : g.nodes with
    | nil =>
        rw [show ([] : List TVNode).isEmpty = true from rfl,
          if_pos (rfl : (true : Bool) = true)]
        have hnone : ∀ e ∈ g.edges,
            Layout.layoutEdgeOf sv (findBackEdges [] g.edges)
              (Layout.nodeMapOf (Layout.layoutNodesOf sv [])) e = none := by
          intro e _
          apply layoutEdgeOf_none
          left
          rfl
        exact (reduceOption_map_none _ _ hnone).symm
    | cons n ns =>
        rw [show (n :: ns).isEmpty = false from rfl,
          if_neg (show ¬ (false = true) by decide)]
  refine ⟨hchar, ?_, ?_, ?_⟩
  · intro oe hoe
    rw [hchar] at hoe
    have := List.reduceOption_mem_iff.mp hoe
    obtain ⟨e, _, heq⟩ := List.mem_map.mp this
    obtain ⟨hs, ht, ⟨sn, hsn⟩, ⟨tn, htn⟩⟩ := layoutEdgeOf_some _ _ _ _ _ heq
    constructor
    · rw [hs]
      exact mapGet_nodeMap_mem_ids sv g.nodes e.source sn hsn
    · rw [ht]
      exact mapGet_nodeMap_mem_ids sv g.nodes e.target tn htn
  · intro e _ hmiss
    apply layoutEdgeOf_none
    rcases hmiss with h | h
    · left
      cases hg : Layout.mapGet (Layout.nodeMapOf (Layout.layoutNodesOf sv g.nodes))
          e.source with
      | none => rfl
      | some v => exact absurd (mapGet_nodeMap_mem_ids sv g.nodes e.source v hg) h
    · right
      cases hg : Layout.mapGet (Layout.nodeMapOf (Layout.layoutNodesOf sv g.nodes))
          e.target with
      | none => rfl
      | some v => exact absurd (mapGet_nodeMap_mem_ids sv g.nodes e.target v hg) h
  · intro hne
    have hne2 : g.nodes.isEmpty = false := by
      cases hn : g.nodes with
      | nil => exact absurd hn hne
      | cons a l => rfl
    unfold Flow.computeFlowLayout
    rw [hne2, if_neg (show ¬ (false = true) by decide)]
    dsimp only
    unfold Flow.flowEdgesOf
    rw [List.map_map]
    rfl

/-- Counterexample for C3 as stated: the flow variant keeps the edge
`a→b` in its output although `b` is not a node, while the flat variant
drops it. -/
theorem edge_resolution_flow_keeps_dangling :
    (Flow.computeFlowLayout noSolver ⟨[tnode "a"], [tedge "a" "b"], []⟩).edges.map
        (fun fe => (fe.source, fe.target)) = [("a", "b")] ∧
      "b" ∉ ([tnode "a"].map (fun n => n.id)) ∧
      (Layout.computeLayout noSolver ⟨[tnode "a"], [tedge "a" "b"], []⟩).edges
        = [] := by
  refine ⟨?_, by simp [tnode], ?_⟩
  · simp [Flow.computeFlowLayout, Flow.flowEdgesOf, findBackEdges, dfsStep,
      dfsRun, outgoingOf, tnode, tedge, edgeKey]
  · simp [Layout.computeLayout, Layout.layoutEdgeOf, Layout.nodeMapOf,
      Layout.layoutNodesOf, Layout.mapGet, mapSet, findBackEdges, dfsStep,
      dfsRun, outgoingOf, tnode, tedge, edgeKey, Layout.getNodeDimensions,
      noSolver, List.find?, List.reduceOption]

/-! ## Claim C1: removing back edges yields an acyclic graph -/

/-- The index of a freshly appended element is the old length. -/
theorem indexOf_append_self (l : List String) (u : String) (h : u ∉ l) :
    (l ++ [u]).indexOf u = l.length := by
  induction l with
  | nil => simp
  | cons a l ih =>
      have hne : u ≠ a := fun he => h (he ▸ List.mem_cons_self _ _)
      rw [List.cons_append, List.indexOf_cons_ne _ (by simpa using hne.symm)]
      simp [ih (fun hm => h (List.mem_cons_of_mem _ hm))]

/-- `FramesOK` is monotone: the back-edge set may grow, and scanned
targets may move from the stack into the finished list. -/
theorem FramesOK_mono (nodes : List TVNode) (edges : List TVEdge)
    (frames : List (String × List String)) :
    ∀ (B B' fin fin' above above' : List String),
    (∀ k ∈ B, k ∈ B') →
    (∀ v, (v ∈ fin ∨ v ∈ above) → (v ∈ fin' ∨ v ∈ above')) →
    FramesOK nodes edges B fin frames above →
    FramesOK nodes edges B' fin' frames above' := by
  induction frames with
  | nil => intro B B' fin fin' above above' _ _ _; trivial
  | cons f rest ih =>
      obtain ⟨u, ns⟩ := f
      rintro B B' fin fin' above above' hB hmove ⟨⟨pre, hpre, hsc⟩, hrest⟩
      refine ⟨⟨pre, hpre, ?_⟩, ih B B' fin fin' (u :: above) (u :: above') hB ?_ hrest⟩
      · intro v hv
        rcases hsc v hv with h | h | h
        · exact Or.inl (hB _ h)
        · rcases hmove v (Or.inl h) with h2 | h2
          · exact Or.inr (Or.inl h2)
          · exact Or.inr (Or.inr h2)
        · rcases hmove v (Or.inr h) with h2 | h2
          · exact Or.inr (Or.inl h2)
          · exact Or.inr (Or.inr h2)
      · intro v hv
        rcases hv with h | h
        · rcases hmove v (Or.inl h) with h2 | h2
          · exact Or.inl h2
          · exact Or.inr (List.mem_cons_of_mem _ h2)
        · rcases List.mem_cons.mp h with h2 | h2
          · exact Or.inr (h2 ▸ List.mem_cons_self _ _)
          · rcases hmove v (Or.inr h2) with h3 | h3
            · exact Or.inl h3
            · exact Or.inr (List.mem_cons_of_mem _ h3)

/-- `FinOK` is monotone in the back-edge set. -/
theorem FinOK_mono_B (nodes : List TVNode) (edges : List TVEdge)
    (B B' fin : List String) (hB : ∀ k ∈ B, k ∈ B')
    (h : FinOK nodes edges B fin) : FinOK nodes edges B' fin := by
  intro u hu v hv
  rcases h u hu v hv with h2 | h2
  · exact Or.inl (hB _ h2)
  · exact Or.inr h2

/-- Appending a fully scanned node preserves the finishing order
property. -/
theorem FinOK_append (nodes : List TVNode) (edges : List TVEdge)
    (B fin : List String) (u : String)
    (hfin : FinOK nodes edges B fin) (hu : u ∉ fin)
    (hscan : ∀ v ∈ outgoingOf nodes edges u, edgeKey u v ∈ B ∨ v ∈ fin) :
    FinOK nodes edges B (fin ++ [u]) := by
  intro w hw v hv
  rcases List.mem_append.mp hw with hw2 | hw2
  · rcases hfin w hw2 v hv with h | ⟨h1, h2⟩
    · exact Or.inl h
    · refine Or.inr ⟨List.mem_append_left _ h1, ?_⟩
      rw [List.indexOf_append_of_mem h1, List.indexOf_append_of_mem hw2]
      exact h2
  · rcases List.mem_singleton.mp hw2 with rfl
    rcases hscan v hv with h | h
    · exact Or.inl h
    · refine Or.inr ⟨List.mem_append_left _ h, ?_⟩
      rw [List.indexOf_append_of_mem h,
        indexOf_append_self fin w hu]
      exact List.indexOf_lt_length.mpr h

/-- A listed edge with a listed source appears in the adjacency of its
source. -/
theorem mem_outgoingOf (nodes : List TVNode) (edges : List TVEdge)
    (e : TVEdge) (he : e ∈ edges)
    (hsrc : e.source ∈ nodes.map (fun n => n.id)) :
    e.target ∈ outgoingOf nodes edges e.source := by
  unfold outgoingOf
  rw [if_pos hsrc]
  exact List.mem_map.mpr ⟨e, List.mem_filter.mpr ⟨he, by simp⟩, rfl⟩

/-- The DFS machine only grows the visited set. -/
theorem dfsRun_visited_mono (nodes : List TVNode) (edges : List TVEdge) :
    ∀ (frames : List (String × List String)) (st : DfsSt)
      (hf : ∀ f ∈ frames, ∀ n ∈ f.2, n ∈ dfsUniv nodes edges),
      ∀ x ∈ st.visited, x ∈ (dfsRun nodes edges frames st hf).visited := by
  intro frames st hf
  induction frames, st, hf using dfsRun.induct nodes edges with
  | case1 st hf _ => intro x hx; simpa [dfsRun] using hx
  | case2 u rest st hf _ ih =>
      intro x hx
      simp only [dfsRun]
      exact ih x hx
  | case3 u n ns rest st hf hn _ ih =>
      intro x hx
      simp only [dfsRun]
      rw [if_pos hn]
      exact ih x hx
  | case4 u n ns rest st hf hn hv _ ih =>
      intro x hx
      simp only [dfsRun]
      rw [if_neg hn, if_pos hv]
      exact ih x hx
  | case5 u n ns rest st hf hn hv _ ih =>
      intro x hx
      simp only [dfsRun]
      rw [if_neg hn, if_neg hv]
      exact ih x (List.mem_cons_of_mem _ hx)

/-- The DFS machine preserves the invariant and, once the worklist is
exhausted, extends the finishing order by the nodes it popped. -/
theorem dfsRun_inv (nodes : List TVNode) (edges : List TVEdge) :
    ∀ (frames : List (String × List String)) (st : DfsSt)
      (hf : ∀ f ∈ frames, ∀ n ∈ f.2, n ∈ dfsUniv nodes edges)
      (fin : List String), DfsInv nodes edges frames st fin →
      ∃ ext, DfsInv nodes edges [] (dfsRun nodes edges frames st hf)
        (fin ++ ext) := by
  intro frames st hf
  induction frames, st, hf using dfsRun.induct nodes edges with
  | case1 st hf _ =>
      intro fin hinv
      refine ⟨[], ?_⟩
      rw [List.append_nil]
      simpa only [dfsRun] using hinv
  | case2 u rest st hf _ ih =>
      intro fin hinv
      have frames_ok := hinv.frames_ok
      simp only [FramesOK] at frames_ok
      have hstack : st.inStack = u :: rest.map Prod.fst := hinv.stack_eq
      have herase : st.inStack.erase u = rest.map Prod.fst := by
        rw [hstack]
        exact List.erase_cons_head u _
      have hu_notfin : u ∉ fin :=
        fun huf => hinv.fin_disj u huf (by rw [hstack]; exact List.mem_cons_self _ _)
      have hscan' : ∀ v ∈ outgoingOf nodes edges u,
          edgeKey u v ∈ st.backEdges ∨ v ∈ fin := by
        intro v hv
        obtain ⟨pre, hpre, hscan⟩ := frames_ok.1
        have hpre2 : outgoingOf nodes edges u = pre := by
          rw [hpre, List.append_nil]
        rcases hscan v (by rw [← hpre2]; exact hv) with h | h | h
        · exact Or.inl h
        · exact Or.inr h
        · simp at h
      have hnodup_rest : (rest.map Prod.fst).Nodup := by
        have := hinv.stack_nodup
        rw [hstack] at this
        exact (List.nodup_cons.mp this).2
      have hu_notrest : u ∉ rest.map Prod.fst := by
        have := hinv.stack_nodup
        rw [hstack] at this
        exact (List.nodup_cons.mp this).1
      have hinv' : DfsInv nodes edges rest
          { st with inStack := st.inStack.erase u } (fin ++ [u]) := by
        refine ⟨herase, ?_, ?_, ?_, ?_, ?_, ?_⟩
        · show (st.inStack.erase u).Nodup
          rw [herase]
          exact hnodup_rest
        · intro x
          show x ∈ st.visited ↔ x ∈ fin ++ [u] ∨ x ∈ st.inStack.erase u
          rw [herase, hinv.visited_iff x, hstack]
          constructor
          · rintro (h | h)
            · exact Or.inl (List.mem_append_left _ h)
            · rcases List.mem_cons.mp h with h2 | h2
              · exact Or.inl (List.mem_append_right _ (by simp [h2]))
              · exact Or.inr h2
          · rintro (h | h)
            · rcases List.mem_append.mp h with h2 | h2
              · exact Or.inl h2
              · exact Or.inr (by rw [List.mem_singleton.mp h2]; exact List.mem_cons_self _ _)
            · exact Or.inr (List.mem_cons_of_mem _ h)
        · simp [List.nodup_append, hinv.fin_nodup, hu_notfin]
        · intro x hx
          show x ∉ st.inStack.erase u
          rw [herase]
          rcases List.mem_append.mp hx with h | h
          · intro hmem
            exact hinv.fin_disj x h (by rw [hstack]; exact List.mem_cons_of_mem _ hmem)
          · rcases List.mem_singleton.mp h with rfl
            exact hu_notrest
        · show FramesOK nodes edges st.backEdges (fin ++ [u]) rest []
          refine FramesOK_mono nodes edges rest st.backEdges st.backEdges fin
            (fin ++ [u]) [u] [] (fun k hk => hk) ?_ frames_ok.2
          intro v hv
          rcases hv with h | h
          · exact Or.inl (List.mem_append_left _ h)
          · exact Or.inl (List.mem_append_right _ h)
        · exact FinOK_append nodes edges st.backEdges fin u hinv.fin_ok
            hu_notfin hscan'
      obtain ⟨ext, hres⟩ := ih (fin ++ [u]) hinv'
      refine ⟨u :: ext, ?_⟩
      have : fin ++ u :: ext = (fin ++ [u]) ++ ext := by simp
      rw [this]
      simpa only [dfsRun] using hres
  | case3 u n ns rest st hf hn _ ih =>
      intro fin hinv
      have frames_ok := hinv.frames_ok
      simp only [FramesOK] at frames_ok
      have hinv' : DfsInv nodes edges ((u, ns) :: rest)
          { st with backEdges := edgeKey u n :: st.backEdges } fin := by
        refine ⟨hinv.stack_eq, hinv.stack_nodup, hinv.visited_iff,
          hinv.fin_nodup, hinv.fin_disj, ?_, ?_⟩
        · show FramesOK nodes edges (edgeKey u n :: st.backEdges) fin
            ((u, ns) :: rest) []
          simp only [FramesOK]
          constructor
          · obtain ⟨pre, hpre, hscan⟩ := frames_ok.1
            refine ⟨pre ++ [n], by rw [hpre]; simp, ?_⟩
            intro v hv
            rcases List.mem_append.mp hv with h | h
            · rcases hscan v h with h2 | h2 | h2
              · exact Or.inl (List.mem_cons_of_mem _ h2)
              · exact Or.inr (Or.inl h2)
              · exact Or.inr (Or.inr h2)
            · rcases List.mem_singleton.mp h with rfl
              exact Or.inl (List.mem_cons_self _ _)
          · exact FramesOK_mono nodes edges rest st.backEdges
              (edgeKey u n :: st.backEdges) fin fin [u] [u]
              (fun k hk => List.mem_cons_of_mem _ hk) (fun v hv => hv)
              frames_ok.2
        · exact FinOK_mono_B nodes edges st.backEdges
            (edgeKey u n :: st.backEdges) fin
            (fun k hk => List.mem_cons_of_mem _ hk) hinv.fin_ok
      obtain ⟨ext, hres⟩ := ih fin hinv'
      refine ⟨ext, ?_⟩
      simp only [dfsRun]
      rw [if_pos hn]
      exact hres
  | case4 u n ns rest st hf hn hv _ ih =>
      intro fin hinv
      have frames_ok := hinv.frames_ok
      simp only [FramesOK] at frames_ok
      have hnfin : n ∈ fin := ((hinv.visited_iff n).mp hv).resolve_right hn
      have hinv' : DfsInv nodes edges ((u, ns) :: rest) st fin := by
        refine ⟨hinv.stack_eq, hinv.stack_nodup, hinv.visited_iff,
          hinv.fin_nodup, hinv.fin_disj, ?_, hinv.fin_ok⟩
        show FramesOK nodes edges st.backEdges fin ((u, ns) :: rest) []
        simp only [FramesOK]
        constructor
        · obtain ⟨pre, hpre, hscan⟩ := frames_ok.1
          refine ⟨pre ++ [n], by rw [hpre]; simp, ?_⟩
          intro v hv2
          rcases List.mem_append.mp hv2 with h | h
          · exact hscan v h
          · rcases List.mem_singleton.mp h with rfl
            exact Or.inr (Or.inl hnfin)
        · exact frames_ok.2
      obtain ⟨ext, hres⟩ := ih fin hinv'
      refine ⟨ext, ?_⟩
      simp only [dfsRun]
      rw [if_neg hn, if_pos hv]
      exact hres
  | case5 u n ns rest st hf hn hv _ ih =>
      intro fin hinv
      have frames_ok := hinv.frames_ok
      simp only [FramesOK] at frames_ok
      have hinv' : DfsInv nodes edges
          ((n, outgoingOf nodes edges n) :: (u, ns) :: rest)
          { st with visited := n :: st.visited, inStack := n :: st.inStack }
          fin := by
        refine ⟨?_, ?_, ?_, hinv.fin_nodup, ?_, ?_, hinv.fin_ok⟩
        · show n :: st.inStack = _
          rw [hinv.stack_eq]
          rfl
        · exact List.nodup_cons.mpr ⟨hn, hinv.stack_nodup⟩
        · intro x
          show x ∈ n :: st.visited ↔ x ∈ fin ∨ x ∈ n :: st.inStack
          constructor
          · intro hx
            rcases List.mem_cons.mp hx with h | h
            · exact Or.inr (h ▸ List.mem_cons_self _ _)
            · rcases (hinv.visited_iff x).mp h with h2 | h2
              · exact Or.inl h2
              · exact Or.inr (List.mem_cons_of_mem _ h2)
          · intro hx
            rcases hx with h | h
            · exact List.mem_cons_of_mem _ ((hinv.visited_iff x).mpr (Or.inl h))
            · rcases List.mem_cons.mp h with h2 | h2
              · exact h2 ▸ List.mem_cons_self _ _
              · exact List.mem_cons_of_mem _
                  ((hinv.visited_iff x).mpr (Or.inr h2))
        · intro x hx
          show x ∉ n :: st.inStack
          intro hmem
          rcases List.mem_cons.mp hmem with h | h
          · exact hv (h ▸ (hinv.visited_iff x).mpr (Or.inl hx))
          · exact hinv.fin_disj x hx h
        · show FramesOK nodes edges st.backEdges fin
            ((n, outgoingOf nodes edges n) :: (u, ns) :: rest) []
          simp only [FramesOK]
          refine ⟨⟨[], rfl, by intro v hv2; simp at hv2⟩, ?_, ?_⟩
          · obtain ⟨pre, hpre, hscan⟩ := frames_ok.1
            refine ⟨pre ++ [n], by rw [hpre]; simp, ?_⟩
            intro v hv2
            rcases List.mem_append.mp hv2 with h | h
            · rcases hscan v h with h2 | h2 | h2
              · exact Or.inl h2
              · exact Or.inr (Or.inl h2)
              · simp at h2
            · rcases List.mem_singleton.mp h with rfl
              exact Or.inr (Or.inr (by simp))
          · exact FramesOK_mono nodes edges rest st.backEdges st.backEdges
              fin fin [u] [u, n] (fun k hk => hk)
              (by
                intro v hv2
                rcases hv2 with h | h
                · exact Or.inl h
                · exact Or.inr (by simpa using Or.inl (List.mem_singleton.mp h)))
              frames_ok.2
      obtain ⟨ext, hres⟩ := ih fin hinv'
      refine ⟨ext, ?_⟩
      simp only [dfsRun]
      rw [if_neg hn, if_neg hv]
      exact hres

/-- The root loop of `findBackEdges` preserves the invariant, grows the
visited set and visits every node of the list. -/
theorem foldl_dfsStep_inv (nodes : List TVNode) (edges : List TVEdge)
    (l : List TVNode) :
    ∀ (st : DfsSt) (fin : List String), DfsInv nodes edges [] st fin →
    ∃ fin2 : List String,
      DfsInv nodes edges [] (l.foldl (dfsStep nodes edges) st) fin2 ∧
      (∀ x ∈ st.visited, x ∈ (l.foldl (dfsStep nodes edges) st).visited) ∧
      (∀ nd ∈ l, nd.id ∈ (l.foldl (dfsStep nodes edges) st).visited) := by
  induction l with
  | nil =>
      intro st fin h
      exact ⟨fin, h, fun x hx => hx, by simp⟩
  | cons nd l ih =>
      intro st fin h
      rw [List.foldl_cons]
      by_cases hvis : nd.id ∈ st.visited
      · have hstep : dfsStep nodes edges st nd = st := by
          unfold dfsStep
          rw [if_pos hvis]
        rw [hstep]
        obtain ⟨fin2, h2, hmono, hall⟩ := ih st fin h
        refine ⟨fin2, h2, hmono, ?_⟩
        intro nd2 hnd2
        rcases List.mem_cons.mp hnd2 with h3 | h3
        · exact h3 ▸ hmono nd.id hvis
        · exact hall nd2 h3
      · have hstack_nil : st.inStack = [] := by
          simpa using h.stack_eq
        have hseed : DfsInv nodes edges
            [(nd.id, outgoingOf nodes edges nd.id)]
            { st with visited := nd.id :: st.visited,
                      inStack := nd.id :: st.inStack } fin := by
          refine ⟨?_, ?_, ?_, h.fin_nodup, ?_, ?_, h.fin_ok⟩
          · show nd.id :: st.inStack = [nd.id]
            rw [hstack_nil]
          · show (nd.id :: st.inStack).Nodup
            rw [hstack_nil]
            simp
          · intro x
            show x ∈ nd.id :: st.visited ↔ x ∈ fin ∨ x ∈ nd.id :: st.inStack
            constructor
            · intro hx
              rcases List.mem_cons.mp hx with h2 | h2
              · exact Or.inr (h2 ▸ List.mem_cons_self _ _)
              · rcases (h.visited_iff x).mp h2 with h3 | h3
                · exact Or.inl h3
                · exact Or.inr (List.mem_cons_of_mem _ h3)
            · intro hx
              rcases hx with h2 | h2
              · exact List.mem_cons_of_mem _ ((h.visited_iff x).mpr (Or.inl h2))
              · rcases List.mem_cons.mp h2 with h3 | h3
                · exact h3 ▸ List.mem_cons_self _ _
                · exact List.mem_cons_of_mem _ ((h.visited_iff x).mpr (Or.inr h3))
          · intro x hx
            show x ∉ nd.id :: st.inStack
            rw [hstack_nil]
            intro hmem
            rcases List.mem_cons.mp hmem with h2 | h2
            · exact hvis (h2 ▸ (h.visited_iff x).mpr (Or.inl hx))
            · simp at h2
          · show FramesOK nodes edges st.backEdges fin
              [(nd.id, outgoingOf nodes edges nd.id)] []
            simp only [FramesOK]
            exact ⟨⟨[], rfl, by intro v hv; simp at hv⟩, trivial⟩
        obtain ⟨ext, hres⟩ := dfsRun_inv nodes edges
          [(nd.id, outgoingOf nodes edges nd.id)]
          { st with visited := nd.id :: st.visited,
                    inStack := nd.id :: st.inStack }
          (fun f hfr x hx => by
            rcases List.mem_cons.mp hfr with h2 | h2
            · exact outgoingOf_subset_univ nodes edges nd.id x
                (by rw [h2] at hx; exact hx)
            · simp at h2)
          fin hseed
        have hstep : dfsStep nodes edges st nd
            = dfsRun nodes edges [(nd.id, outgoingOf nodes edges nd.id)]
              { st with visited := nd.id :: st.visited,
                        inStack := nd.id :: st.inStack }
              (fun f hfr x hx => by
                rcases List.mem_cons.mp hfr with h2 | h2
                · exact outgoingOf_subset_univ nodes edges nd.id x
                    (by rw [h2] at hx; exact hx)
                · simp at h2) := by
          unfold dfsStep
          rw [if_neg hvis]
        rw [hstep]
        obtain ⟨fin2, h2, hmono2, hall2⟩ := ih _ _ hres
        refine ⟨fin2, h2, ?_, ?_⟩
        · intro x hx
          refine hmono2 x ?_
          exact dfsRun_visited_mono nodes edges _ _ _ x
            (List.mem_cons_of_mem _ hx)
        · intro nd2 hnd2
          rcases List.mem_cons.mp hnd2 with h3 | h3
          · refine h3 ▸ hmono2 nd.id ?_
            exact dfsRun_visited_mono nodes edges _ _ _ nd.id
              (List.mem_cons_self _ _)
          · exact hall2 nd2 h3

/-- `findBackEdges` admits a finishing order: a duplicate-free list
containing every node id, along which every non-back adjacency edge
strictly decreases. -/
theorem findBackEdges_spec (nodes : List TVNode) (edges : List TVEdge) :
    ∃ fin : List String, fin.Nodup ∧
      (∀ nd ∈ nodes, nd.id ∈ fin) ∧
      FinOK nodes edges (findBackEdges nodes edges) fin := by
  have hinit : DfsInv nodes edges [] (⟨[], [], []⟩ : DfsSt) [] := by
    refine ⟨rfl, List.nodup_nil, ?_, List.nodup_nil, ?_, trivial, ?_⟩
    · intro x
      simp
    · intro x hx
      simp at hx
    · intro u hu
      simp at hu
  obtain ⟨fin2, h2, _, hall⟩ := foldl_dfsStep_inv nodes edges nodes
    ⟨[], [], []⟩ [] hinit
  have hstack : (nodes.foldl (dfsStep nodes edges) ⟨[], [], []⟩).inStack = [] := by
    simpa using h2.stack_eq
  refine ⟨fin2, h2.fin_nodup, ?_, ?_⟩
  · intro nd hnd
    have := (h2.visited_iff nd.id).mp (hall nd hnd)
    rcases this with h3 | h3
    · exact h3
    · rw [hstack] at h3
      simp at h3
  · show FinOK nodes edges
      (nodes.foldl (dfsStep nodes edges) ⟨[], [], []⟩).backEdges fin2
    exact h2.fin_ok

/-- Claim C1: for every input graph — any node list and edge list,
cycles allowed — deleting from the edge list every edge whose
`source->target` key is in the set returned by `findBackEdges` leaves a
directed graph with no directed cycle: no non-empty closed walk through
the surviving edges runs between listed nodes. -/
theorem findBackEdges_removal_acyclic (nodes : List TVNode)
    (edges : List TVEdge) (cyc : List TVEdge) :
    ¬ KeptClosedWalk nodes edges cyc := by
  rintro ⟨⟨hne, hmem, hchain, hclosed⟩, hkept⟩
  obtain ⟨fin, _hnodup, hids, hfinok⟩ := findBackEdges_spec nodes edges
  have hstep : ∀ e ∈ cyc, e.source ∈ fin ∧ e.target ∈ fin ∧
      fin.indexOf e.target < fin.indexOf e.source := by
    intro e he
    have hsrc := (hkept e he).1
    have hsf : e.source ∈ fin := by
      obtain ⟨n, hn, hid⟩ := List.mem_map.mp hsrc
      exact hid ▸ hids n hn
    have hadj := mem_outgoingOf nodes edges e (hmem e he) hsrc
    rcases hfinok e.source hsf e.target hadj with h | ⟨h1, h2⟩
    · exact absurd h (hkept e he).2
    · exact ⟨hsf, h1, h2⟩
  have hlen : 0 < cyc.length := List.length_pos.mpr hne
  have hmono : ∀ i, ∀ hi : i < cyc.length,
      fin.indexOf ((cyc.get ⟨i, hi⟩).source) ≤
        fin.indexOf ((cyc.get ⟨0, hlen⟩).source) := by
    intro i
    induction i with
    | zero => intro hi; exact le_rfl
    | succ j ihj =>
        intro hi
        have hj : j < cyc.length := Nat.lt_of_succ_lt hi
        have hch : (cyc.get ⟨j, hj⟩).target = (cyc.get ⟨j + 1, hi⟩).source :=
          List.chain'_iff_get.mp hchain j (by omega)
        have hst := hstep (cyc.get ⟨j, hj⟩) (List.get_mem _ _ _)
        refine le_of_lt (lt_of_lt_of_le ?_ (ihj hj))
        rw [← hch]
        exact hst.2.2
  have hm1 : cyc.length - 1 < cyc.length := by omega
  have hlast := hstep (cyc.get ⟨cyc.length - 1, hm1⟩) (List.get_mem _ _ _)
  have hclose2 : (cyc.get ⟨cyc.length - 1, hm1⟩).target
      = (cyc.get ⟨0, hlen⟩).source := by
    have h1 : cyc.head? = some (cyc.get ⟨0, hlen⟩) := by
      cases cyc with
      | nil => simp at hlen
      | cons a t => rfl
    have h2 : cyc.getLast? = some (cyc.get ⟨cyc.length - 1, hm1⟩) := by
      rw [List.getLast?_eq_getLast cyc hne, List.getLast_eq_get]
    unfold WalkClosed at hclosed
    rw [h1, h2] at hclosed
    simpa using hclosed
  have hA : fin.indexOf ((cyc.get ⟨0, hlen⟩).source)
      < fin.indexOf ((cyc.get ⟨cyc.length - 1, hm1⟩).source) := by
    rw [← hclose2]
    exact hlast.2.2
  have hB := hmono (cyc.length - 1) hm1
  omega

/-- Sanity check that the walk predicates are non-degenerate: before
deletion, the triangle `a→b→c→a` is a closed walk in its own edge
list. -/
theorem closedWalkIn_triangle :
    ClosedWalkIn [tedge "a" "b", tedge "b" "c", tedge "c" "a"]
      [tedge "a" "b", tedge "b" "c", tedge "c" "a"] := by
  refine ⟨by simp, by simp, ?_, ?_⟩
  · simp [WalkChained, tedge, List.chain'_cons]
  · simp [WalkClosed, tedge]

/-! ## Claim C4: container box containment -/

/-- A key absent from an association list looks up to nothing. -/
theorem mapGet_not_mem {α : Type} (m : List (String × α)) (k : String)
    (h : k ∉ m.map Prod.fst) : Layout.mapGet m k = none := by
  induction m with
  | nil => rfl
  | cons p m ih =>
      simp only [List.map_cons, List.mem_cons, not_or] at h
      unfold Layout.mapGet at ih ⊢
      rw [List.find?_cons_of_neg _
        (by simp only [decide_eq_true_eq]; exact fun he => h.1 he.symm)]
      exact ih h.2

/-- A successful lookup is preserved by appending entries. -/
theorem mapGet_append_of_some {α : Type} (m l : List (String × α)) (k : String)
    (v : α) (h : Layout.mapGet m k = some v) :
    Layout.mapGet (m ++ l) k = some v := by
  unfold Layout.mapGet at h ⊢
  cases hf : m.find? (fun p => p.1 = k) with
  | none => rw [hf] at h; simp at h
  | some q =>
      rw [hf] at h
      rw [List.find?_append, hf]
      simpa using h

/-- Lookup in a one-entry extension of a map without the key. -/
theorem mapGet_append_single {α : Type} (m : List (String × α)) (k k' : String)
    (v : α) (h : Layout.mapGet m k' = none) :
    Layout.mapGet (m ++ [(k, v)]) k' = if k = k' then some v else none := by
  have hf : m.find? (fun p => p.1 = k') = none := by
    unfold Layout.mapGet at h
    exact Option.map_eq_none'.mp h
  unfold Layout.mapGet
  rw [List.find?_append, hf]
  by_cases hk : k = k'
  · subst hk; simp [List.find?]
  · simp [List.find?, hk]

/-- A successful lookup returns a stored pair carrying the key. -/
theorem mapGet_mem_pair {α : Type} (m : List (String × α)) (k : String) (v : α)
    (h : Layout.mapGet m k = some v) : (k, v) ∈ m := by
  unfold Layout.mapGet at h
  cases hf : m.find? (fun p => p.1 = k) with
  | none => rw [hf] at h; simp at h
  | some q =>
      rw [hf] at h
      have hmem := List.mem_of_find?_eq_some hf
      have hq : q.1 = k := by simpa using List.find?_some hf
      have hv : q.2 = v := by simpa using h
      have hqkv : q = (k, v) := Prod.ext hq hv
      rwa [hqkv] at hmem

/-- With pairwise-distinct keys, a stored pair is the lookup result. -/
theorem mapGet_of_mem_nodup {α : Type} (m : List (String × α)) (k : String)
    (v : α) (hm : (k, v) ∈ m) (hk : (m.map Prod.fst).Nodup) :
    Layout.mapGet m k = some v := by
  induction m with
  | nil => cases hm
  | cons p m ih =>
      simp only [List.map_cons, List.nodup_cons] at hk
      rcases List.mem_cons.mp hm with rfl | hm'
      · unfold Layout.mapGet
        rw [List.find?_cons_of_pos _ (by simp)]
        rfl
      · have hne : ¬ (p.1 = k) := by
          intro he
          exact hk.1 (by rw [he]; exact List.mem_map.mpr ⟨(k, v), hm', rfl⟩)
        unfold Layout.mapGet at ih ⊢
        rw [List.find?_cons_of_neg _ (by simpa using hne)]
        exact ih hm' hk.2

/-- Assigning a fresh key appends the binding. -/
theorem mapSet_not_mem {α : Type} (m : List (String × α)) (k : String) (v : α)
    (h : k ∉ m.map Prod.fst) : mapSet m k v = m ++ [(k, v)] := by
  have hany : m.any (fun p => p.1 = k) = false := by
    rw [List.any_eq_false]
    intro p hp
    simp only [decide_eq_true_eq]
    intro hpk
    exact h (List.mem_map.mpr ⟨p, hp, hpk⟩)
  unfold mapSet
  simp only [hany]
  rw [if_neg (by decide)]

/-- `foldl min` is bounded by its initial value. -/
theorem foldl_min_le_init (l : List ℚ) (a : ℚ) : l.foldl min a ≤ a := by
  induction l generalizing a with
  | nil => exact le_refl a
  | cons x l ih => exact le_trans (ih (min a x)) (min_le_left a x)

/-- `foldl min` is bounded by every list element. -/
theorem foldl_min_le_mem (l : List ℚ) : ∀ a x, x ∈ l → l.foldl min a ≤ x := by
  induction l with
  | nil => intro a x hx; cases hx
  | cons y l ih =>
      intro a x hx
      rw [List.foldl_cons]
      rcases List.mem_cons.mp hx with rfl | hx'
      · exact le_trans (foldl_min_le_init l (min a x)) (min_le_right a x)
      · exact ih (min a y) x hx'

/-- `foldl max` dominates its initial value. -/
theorem init_le_foldl_max (l : List ℚ) (a : ℚ) : a ≤ l.foldl max a := by
  induction l generalizing a with
  | nil => exact le_refl a
  | cons x l ih => exact le_trans (le_max_left a x) (ih (max a x))

/-- `foldl max` dominates every list element. -/
theorem mem_le_foldl_max (l : List ℚ) : ∀ a x, x ∈ l → x ≤ l.foldl max a := by
  induction l with
  | nil => intro a x hx; cases hx
  | cons y l ih =>
      intro a x hx
      rw [List.foldl_cons]
      rcases List.mem_cons.mp hx with rfl | hx'
      · exact le_trans (le_max_right a x) (init_le_foldl_max l (max a x))
      · exact ih (max a y) x hx'

/-- `Math.min` over a non-empty list is bounded by every element. -/
theorem qMin_le (l : List ℚ) (x : ℚ) (hx : x ∈ l) : Layout.qMin l ≤ x := by
  cases l with
  | nil => cases hx
  | cons a l =>
      show List.foldl min a l ≤ x
      rcases List.mem_cons.mp hx with rfl | hx'
      · exact foldl_min_le_init l x
      · exact foldl_min_le_mem l a x hx'

/-- `Math.max` over a non-empty list dominates every element. -/
theorem le_qMax (l : List ℚ) (x : ℚ) (hx : x ∈ l) : x ≤ Layout.qMax l := by
  cases l with
  | nil => cases hx
  | cons a l =>
      show x ≤ List.foldl max a l
      rcases List.mem_cons.mp hx with rfl | hx'
      · exact init_le_foldl_max l x
      · exact mem_le_foldl_max l a x hx'

/-- The extent fold only widens the running rectangle. -/
theorem extStep_bounds (boxes : List (String × Layout.SubgraphBox))
    (l : List String) : ∀ acc : ℚ × ℚ × ℚ × ℚ,
    (l.foldl (Layout.extStep boxes) acc).1 ≤ acc.1 ∧
    (l.foldl (Layout.extStep boxes) acc).2.1 ≤ acc.2.1 ∧
    acc.2.2.1 ≤ (l.foldl (Layout.extStep boxes) acc).2.2.1 ∧
    acc.2.2.2 ≤ (l.foldl (Layout.extStep boxes) acc).2.2.2 := by
  induction l with
  | nil => intro acc; exact ⟨le_refl _, le_refl _, le_refl _, le_refl _⟩
  | cons c l ih =>
      intro acc
      rw [List.foldl_cons]
      have hstep : (Layout.extStep boxes acc c).1 ≤ acc.1 ∧
          (Layout.extStep boxes acc c).2.1 ≤ acc.2.1 ∧
          acc.2.2.1 ≤ (Layout.extStep boxes acc c).2.2.1 ∧
          acc.2.2.2 ≤ (Layout.extStep boxes acc c).2.2.2 := by
        unfold Layout.extStep
        cases Layout.mapGet boxes c with
        | none => exact ⟨le_refl _, le_refl _, le_refl _, le_refl _⟩
        | some cb =>
            exact ⟨min_le_left _ _, min_le_left _ _, le_max_left _ _,
              le_max_left _ _⟩
      obtain ⟨h1, h2, h3, h4⟩ := ih (Layout.extStep boxes acc c)
      exact ⟨le_trans h1 hstep.1, le_trans h2 hstep.2.1,
        le_trans hstep.2.2.1 h3, le_trans hstep.2.2.2 h4⟩

/-- The extent fold bounds every present child box. -/
theorem extStep_mem_bounds (boxes : List (String × Layout.SubgraphBox))
    (l : List String) : ∀ acc : ℚ × ℚ × ℚ × ℚ, ∀ c ∈ l, ∀ cb,
    Layout.mapGet boxes c = some cb →
    (l.foldl (Layout.extStep boxes) acc).1 ≤ cb.x ∧
    (l.foldl (Layout.extStep boxes) acc).2.1 ≤ cb.y ∧
    cb.x + cb.width ≤ (l.foldl (Layout.extStep boxes) acc).2.2.1 ∧
    cb.y + cb.height ≤ (l.foldl (Layout.extStep boxes) acc).2.2.2 := by
  induction l with
  | nil => intro acc c hc; cases hc
  | cons d l ih =>
      intro acc c hc cb hcb
      rw [List.foldl_cons]
      rcases List.mem_cons.mp hc with rfl | hc'
      · have hstep : (Layout.extStep boxes acc c).1 ≤ cb.x ∧
            (Layout.extStep boxes acc c).2.1 ≤ cb.y ∧
            cb.x + cb.width ≤ (Layout.extStep boxes acc c).2.2.1 ∧
            cb.y + cb.height ≤ (Layout.extStep boxes acc c).2.2.2 := by
          unfold Layout.extStep
          rw [hcb]
          exact ⟨min_le_right _ _, min_le_right _ _, le_max_right _ _,
            le_max_right _ _⟩
        obtain ⟨h1, h2, h3, h4⟩ := extStep_bounds boxes l (Layout.extStep boxes acc c)
        exact ⟨le_trans h1 hstep.1, le_trans h2 hstep.2.1,
          le_trans hstep.2.2.1 h3, le_trans hstep.2.2.2 h4⟩
      · exact ih (Layout.extStep boxes acc d) c hc' cb hcb

/-- The depth padding is never negative. -/
theorem depthPadding_nonneg (d : ℤ) : 0 ≤ Layout.depthPadding d := by
  unfold Layout.depthPadding Layout.SUBGRAPH_PADDING
  have h : min (if d = 0 then 1 else (d : ℚ)) 5 ≤ 5 := min_le_right _ _
  linarith

/-- Box containment is transitive. -/
theorem boxContainsBox_trans (a b c : Layout.SubgraphBox)
    (h1 : boxContainsBox a b) (h2 : boxContainsBox b c) :
    boxContainsBox a c := by
  obtain ⟨x1, y1, r1, d1⟩ := h1
  obtain ⟨x2, y2, r2, d2⟩ := h2
  exact ⟨le_trans x1 x2, le_trans y1 y2, le_trans r2 r1, le_trans d2 d1⟩

/-- `subgraphBoxesOf` is the `boxStep` fold over the depth-sorted
entries. -/
theorem subgraphBoxesOf_eq (sv : Solver) (sgs : List (String × SubgraphInfo))
    (lns : List Layout.LayoutNode) :
    Layout.subgraphBoxesOf sv sgs lns =
      (Layout.sortSubgraphsDesc sgs).foldl (boxStep sv sgs lns) [] := rfl

/-- A list with a member is not empty. -/
theorem isEmpty_false_of_mem {α : Type} (l : List α) (x : α) (hx : x ∈ l) :
    l.isEmpty = false := by
  cases l with
  | nil => cases hx
  | cons a l => rfl

/-- The descendant filter holds exactly on nodes living in a
descendant. -/
theorem isDescNode_iff (descendants : List String) (n : Layout.LayoutNode) :
    Layout.isDescNode descendants n = true ↔
      ∃ s, n.node.subgraph = some s ∧ s ∈ descendants := by
  unfold Layout.isDescNode
  cases hs : n.node.subgraph with
  | none => simp
  | some s => simp

/-- A directly- or descendant-owned node is in the fallback aggregation
list. -/
theorem mem_fallback_allNodes (sgs : List (String × SubgraphInfo))
    (lns : List Layout.LayoutNode) (sgId : String) (n : Layout.LayoutNode)
    (hn : n ∈ lns)
    (hcase : n.node.subgraph = some sgId ∨
      ∃ t, n.node.subgraph = some t ∧
        t ∈ Layout.getAllDescendantSubgraphs sgs sgId) :
    n ∈ lns.filter (fun n => n.node.subgraph = some sgId) ++
      lns.filter
        (Layout.isDescNode (Layout.getAllDescendantSubgraphs sgs sgId)) := by
  rcases hcase with h1 | ⟨t, ht, htd⟩
  · exact List.mem_append_left _ (List.mem_filter.mpr ⟨hn, by simp [h1]⟩)
  · exact List.mem_append_right _
      (List.mem_filter.mpr ⟨hn, (isDescNode_iff _ _).mpr ⟨t, ht, htd⟩⟩)

/-- A container owning a node gets a fallback box. -/
theorem fallbackBox_isSome_of_owns (sgs : List (String × SubgraphInfo))
    (lns : List Layout.LayoutNode) (boxes : List (String × Layout.SubgraphBox))
    (sgId : String) (info : SubgraphInfo) (h : OwnsNode sgs lns sgId) :
    ∃ b, Layout.fallbackBox sgs lns boxes sgId info = some b := by
  obtain ⟨n, hn, hcase⟩ := h
  have hne := isEmpty_false_of_mem _ n (mem_fallback_allNodes sgs lns sgId n hn hcase)
  unfold Layout.fallbackBox
  dsimp only
  rw [hne, if_neg (show ¬ (false = true) by decide)]
  exact ⟨_, rfl⟩

/-- The node bounds of the fallback extent, seeded with the owned-node
extrema. -/
theorem extFold_node_bounds (cs : List String)
    (boxes : List (String × Layout.SubgraphBox))
    (allN : List Layout.LayoutNode) (E : ℚ × ℚ × ℚ × ℚ)
    (hE : E = cs.foldl (Layout.extStep boxes)
      (Layout.qMin (allN.map fun m => m.x),
       Layout.qMin (allN.map fun m => m.y),
       Layout.qMax (allN.map fun m => m.x + m.width),
       Layout.qMax (allN.map fun m => m.y + m.height)))
    (n : Layout.LayoutNode) (hmem : n ∈ allN) :
    E.1 ≤ n.x ∧ E.2.1 ≤ n.y ∧ n.x + n.width ≤ E.2.2.1 ∧
      n.y + n.height ≤ E.2.2.2 := by
  subst hE
  refine ⟨le_trans (extStep_bounds boxes cs _).1 ?_,
    le_trans (extStep_bounds boxes cs _).2.1 ?_,
    le_trans ?_ (extStep_bounds boxes cs _).2.2.1,
    le_trans ?_ (extStep_bounds boxes cs _).2.2.2⟩
  · exact qMin_le _ _ (List.mem_map.mpr ⟨n, hmem, rfl⟩)
  · exact qMin_le _ _ (List.mem_map.mpr ⟨n, hmem, rfl⟩)
  · exact le_qMax _ _ (List.mem_map.mpr ⟨n, hmem, rfl⟩)
  · exact le_qMax _ _ (List.mem_map.mpr ⟨n, hmem, rfl⟩)

/-- The child-box bounds of the fallback extent. -/
theorem extFold_child_bounds (cs : List String)
    (boxes : List (String × Layout.SubgraphBox))
    (allN : List Layout.LayoutNode) (E : ℚ × ℚ × ℚ × ℚ)
    (hE : E = cs.foldl (Layout.extStep boxes)
      (Layout.qMin (allN.map fun m => m.x),
       Layout.qMin (allN.map fun m => m.y),
       Layout.qMax (allN.map fun m => m.x + m.width),
       Layout.qMax (allN.map fun m => m.y + m.height)))
    (c : String) (hc : c ∈ cs) (cb : Layout.SubgraphBox)
    (hcb : Layout.mapGet boxes c = some cb) :
    E.1 ≤ cb.x ∧ E.2.1 ≤ cb.y ∧ cb.x + cb.width ≤ E.2.2.1 ∧
      cb.y + cb.height ≤ E.2.2.2 := by
  subst hE
  exact extStep_mem_bounds boxes cs _ c hc cb hcb

/-- Whatever `fallbackBox` returns encloses every owned node and every
present direct-child box. -/
theorem fallbackBox_contains (sgs : List (String × SubgraphInfo))
    (lns : List Layout.LayoutNode) (boxes : List (String × Layout.SubgraphBox))
    (sgId : String) (info : SubgraphInfo) (b : Layout.SubgraphBox)
    (hb : Layout.fallbackBox sgs lns boxes sgId info = some b) :
    (∀ n ∈ lns, (n.node.subgraph = some sgId ∨
        ∃ t, n.node.subgraph = some t ∧
          t ∈ Layout.getAllDescendantSubgraphs sgs sgId) →
      boxContainsNode b n) ∧
    (∀ c ∈ Layout.childSubgraphsOf sgs sgId, ∀ cb,
      Layout.mapGet boxes c = some cb → boxContainsBox b cb) := by
  have hdp : 0 ≤ Layout.depthPadding info.depth := depthPadding_nonneg _
  unfold Layout.fallbackBox at hb
  dsimp only at hb
  split at hb
  · cases hb
  · injection hb with hb
    subst hb
    refine ⟨?_, ?_⟩
    · intro n hn hcase
      obtain ⟨g1, g2, g3, g4⟩ :=
        extFold_node_bounds (Layout.childSubgraphsOf sgs sgId) boxes _ _ rfl n
          (mem_fallback_allNodes sgs lns sgId n hn hcase)
      refine ⟨?_, ?_, ?_, ?_⟩ <;> dsimp only <;> linarith
    · intro c hc cb hcb
      obtain ⟨f1, f2, f3, f4⟩ :=
        extFold_child_bounds (Layout.childSubgraphsOf sgs sgId) boxes
          (lns.filter (fun n => n.node.subgraph = some sgId) ++
            lns.filter
              (Layout.isDescNode (Layout.getAllDescendantSubgraphs sgs sgId)))
          _ rfl c hc cb hcb
      refine ⟨?_, ?_, ?_, ?_⟩ <;> dsimp only <;> linarith

/-- Direct-child membership unpacked. -/
theorem mem_childSubgraphsOf (sgs : List (String × SubgraphInfo)) (x c : String) :
    c ∈ Layout.childSubgraphsOf sgs x ↔
      ∃ ic, (c, ic) ∈ sgs ∧ ic.parent = some x := by
  unfold Layout.childSubgraphsOf
  constructor
  · intro hc
    obtain ⟨q, hq, rfl⟩ := List.mem_map.mp hc
    have hq' := List.mem_filter.mp hq
    exact ⟨q.2, hq'.1, by simpa using hq'.2⟩
  · rintro ⟨ic, hic, hpar⟩
    exact List.mem_map.mpr ⟨(c, ic), List.mem_filter.mpr ⟨hic, by simpa using hpar⟩, rfl⟩

/-- Chains concatenate through their last element. -/
theorem childChain_append (children : String → List String) (p q : List String) :
    ∀ x, ChildChain children x p → ChildChain children (p.getLastD x) q →
      ChildChain children x (p ++ q) := by
  induction p with
  | nil => intro x _ hq; exact hq
  | cons c p ih =>
      intro x hp hq
      obtain ⟨hc, hp'⟩ := hp
      rw [List.getLastD_cons] at hq
      exact ⟨hc, ih c hp' hq⟩

/-- Membership in the bounded descendant expansion is a bounded child
chain. -/
theorem mem_descWithin_iff (children : String → List String) (k : ℕ) :
    ∀ x d, d ∈ Layout.descWithin children k x ↔
      ∃ p : List String, p ≠ [] ∧ p.length ≤ k ∧ ChildChain children x p ∧
        p.getLast? = some d := by
  induction k with
  | zero =>
      intro x d
      constructor
      · intro hd; simp [Layout.descWithin] at hd
      · rintro ⟨p, hne, hlen, _, _⟩
        cases p with
        | nil => exact absurd rfl hne
        | cons a p => exact absurd hlen (by simp)
  | succ k ih =>
      intro x d
      simp only [Layout.descWithin]
      constructor
      · intro hd
        rw [List.mem_flatMap] at hd
        obtain ⟨c, hc, hdc⟩ := hd
        rcases List.mem_cons.mp hdc with rfl | hdc'
        · exact ⟨[d], by simp, Nat.succ_le_succ (Nat.zero_le k), ⟨hc, trivial⟩, rfl⟩
        · obtain ⟨p, hne, hlen, hchain, hlast⟩ := (ih c d).mp hdc'
          refine ⟨c :: p, by simp, Nat.succ_le_succ hlen, ⟨hc, hchain⟩, ?_⟩
          cases p with
          | nil => exact absurd rfl hne
          | cons a p' => rw [List.getLast?_cons_cons]; exact hlast
      · rintro ⟨p, hne, hlen, hchain, hlast⟩
        cases p with
        | nil => exact absurd rfl hne
        | cons c p' =>
            obtain ⟨hc, hchain'⟩ := hchain
            rw [List.mem_flatMap]
            refine ⟨c, hc, ?_⟩
            cases p' with
            | nil =>
                have hcd : c = d := by simpa using hlast
                subst hcd
                exact List.mem_cons_self _ _
            | cons a p'' =>
                rw [List.getLast?_cons_cons] at hlast
                have hlen' := Nat.le_of_succ_le_succ hlen
                exact List.mem_cons_of_mem _
                  ((ih c d).mpr ⟨a :: p'', by simp, hlen', hchain', hlast⟩)

/-- Along a child chain every element has an entry strictly deeper than
the start. -/
theorem chain_depth_lt (sgs : List (String × SubgraphInfo))
    (hkeys : (sgs.map Prod.fst).Nodup)
    (hdepth : ∀ p ∈ sgs, ∀ q ∈ sgs, p.2.parent = some q.1 → q.2.depth < p.2.depth)
    (p : List String) :
    ∀ x ix, Layout.mapGet sgs x = some ix →
      ChildChain (Layout.childSubgraphsOf sgs) x p →
      ∀ d ∈ p, ∃ idd, Layout.mapGet sgs d = some idd ∧ ix.depth < idd.depth := by
  induction p with
  | nil => intro x ix _ _ d hd; cases hd
  | cons c p ih =>
      intro x ix hx hchain d hd
      obtain ⟨hc, hchain'⟩ := hchain
      obtain ⟨ic, hic, hpar⟩ := (mem_childSubgraphsOf sgs x c).mp hc
      have hgc : Layout.mapGet sgs c = some ic := mapGet_of_mem_nodup sgs c ic hic hkeys
      have hxd : ix.depth < ic.depth :=
        hdepth (c, ic) hic (x, ix) (mapGet_mem_pair sgs x ix hx) hpar
      rcases List.mem_cons.mp hd with rfl | hd'
      · exact ⟨ic, hgc, hxd⟩
      · obtain ⟨idd, hgd, hlt⟩ := ih c ic hgc hchain' d hd'
        exact ⟨idd, hgd, lt_trans hxd hlt⟩

/-- A child chain is pairwise strictly increasing in depth. -/
theorem chain_pairwise (sgs : List (String × SubgraphInfo))
    (hkeys : (sgs.map Prod.fst).Nodup)
    (hdepth : ∀ p ∈ sgs, ∀ q ∈ sgs, p.2.parent = some q.1 → q.2.depth < p.2.depth)
    (p : List String) :
    ∀ x ix, Layout.mapGet sgs x = some ix →
      ChildChain (Layout.childSubgraphsOf sgs) x p →
      p.Pairwise (fun a b => ∀ ia ib, Layout.mapGet sgs a = some ia →
        Layout.mapGet sgs b = some ib → ia.depth < ib.depth) := by
  induction p with
  | nil => intro x ix _ _; exact List.Pairwise.nil
  | cons c p ih =>
      intro x ix hx hchain
      obtain ⟨hc, hchain'⟩ := hchain
      obtain ⟨ic, hic, hpar⟩ := (mem_childSubgraphsOf sgs x c).mp hc
      have hgc : Layout.mapGet sgs c = some ic := mapGet_of_mem_nodup sgs c ic hic hkeys
      refine List.Pairwise.cons ?_ (ih c ic hgc hchain')
      intro b hb ia ib hga hgb
      obtain ⟨idb, hgd, hlt⟩ := chain_depth_lt sgs hkeys hdepth p c ic hgc hchain' b hb
      have hia : ia = ic := Option.some_inj.mp (hga.symm.trans hgc)
      have hib : ib = idb := Option.some_inj.mp (hgb.symm.trans hgd)
      rw [hia, hib]
      exact hlt

/-- Under strictly-increasing parent depths a child chain is simple,
hence no longer than the container count. -/
theorem chain_length_le (sgs : List (String × SubgraphInfo))
    (hkeys : (sgs.map Prod.fst).Nodup)
    (hdepth : ∀ p ∈ sgs, ∀ q ∈ sgs, p.2.parent = some q.1 → q.2.depth < p.2.depth)
    (p : List String) (x : String) (ix : SubgraphInfo)
    (hx : Layout.mapGet sgs x = some ix)
    (hchain : ChildChain (Layout.childSubgraphsOf sgs) x p) :
    p.length ≤ sgs.length := by
  have hpw := chain_pairwise sgs hkeys hdepth p x ix hx hchain
  have hent := chain_depth_lt sgs hkeys hdepth p x ix hx hchain
  have hnd : p.Nodup := by
    refine List.Pairwise.imp_of_mem ?_ hpw
    intro a b ha hb hR hab
    subst hab
    obtain ⟨ia, hga, _⟩ := hent a ha
    exact absurd (hR ia ia hga hga) (lt_irrefl _)
  have hsub : ∀ a ∈ p, a ∈ sgs.map Prod.fst := by
    intro a ha
    obtain ⟨ia, hga, _⟩ := hent a ha
    exact List.mem_map.mpr ⟨(a, ia), mapGet_mem_pair sgs a ia hga, rfl⟩
  calc p.length = p.toFinset.card := (List.toFinset_card_of_nodup hnd).symm
    _ ≤ (sgs.map Prod.fst).toFinset.card := Finset.card_le_card
        (fun a ha => List.mem_toFinset.mpr (hsub a (List.mem_toFinset.mp ha)))
    _ ≤ (sgs.map Prod.fst).length := List.toFinset_card_le _
    _ = sgs.length := by simp

/-- The last element of a non-empty chain is in the chain. -/
theorem getLast?_mem_of_some {α : Type} (l : List α) (a : α)
    (h : l.getLast? = some a) : a ∈ l := by
  cases l with
  | nil => cases h
  | cons b l =>
      rw [List.getLast?_eq_getLast _ (List.cons_ne_nil b l)] at h
      rw [← Option.some_inj.mp h]
      exact List.getLast_mem _

/-- Every descendant is strictly deeper than its ancestor. -/
theorem desc_depth_lt (sgs : List (String × SubgraphInfo))
    (hkeys : (sgs.map Prod.fst).Nodup)
    (hdepth : ∀ p ∈ sgs, ∀ q ∈ sgs, p.2.parent = some q.1 → q.2.depth < p.2.depth)
    (x : String) (ix : SubgraphInfo) (hx : Layout.mapGet sgs x = some ix)
    (d : String) (hd : d ∈ Layout.getAllDescendantSubgraphs sgs x) :
    ∃ idd, Layout.mapGet sgs d = some idd ∧ ix.depth < idd.depth := by
  obtain ⟨p, hne, hlen, hchain, hlast⟩ :=
    (mem_descWithin_iff (Layout.childSubgraphsOf sgs) sgs.length x d).mp hd
  exact chain_depth_lt sgs hkeys hdepth p x ix hx hchain d
    (getLast?_mem_of_some p d hlast)

/-- No container is its own descendant. -/
theorem not_self_desc (sgs : List (String × SubgraphInfo))
    (hkeys : (sgs.map Prod.fst).Nodup)
    (hdepth : ∀ p ∈ sgs, ∀ q ∈ sgs, p.2.parent = some q.1 → q.2.depth < p.2.depth)
    (x : String) (ix : SubgraphInfo) (hx : Layout.mapGet sgs x = some ix) :
    x ∉ Layout.getAllDescendantSubgraphs sgs x := by
  intro hd
  obtain ⟨idd, hgd, hlt⟩ := desc_depth_lt sgs hkeys hdepth x ix hx x hd
  have hix : ix = idd := Option.some_inj.mp (hx.symm.trans hgd)
  rw [← hix] at hlt
  exact lt_irrefl _ hlt

/-- `getLast?` over an append with a non-empty right part. -/
theorem getLast?_append_right {α : Type} (l1 l2 : List α) (h : l2 ≠ []) :
    (l1 ++ l2).getLast? = l2.getLast? := by
  induction l1 with
  | nil => rfl
  | cons a l1 ih =>
      rw [List.cons_append]
      cases hl : l1 ++ l2 with
      | nil => exact absurd (List.append_eq_nil.mp hl).2 h
      | cons b m =>
          rw [List.getLast?_cons_cons, ← hl]
          exact ih

/-- Descendants compose transitively under depth-consistent container
metadata. -/
theorem desc_trans (sgs : List (String × SubgraphInfo))
    (hkeys : (sgs.map Prod.fst).Nodup)
    (hdepth : ∀ p ∈ sgs, ∀ q ∈ sgs, p.2.parent = some q.1 → q.2.depth < p.2.depth)
    (x : String) (ix : SubgraphInfo) (hx : Layout.mapGet sgs x = some ix)
    (d t : String) (hd : d ∈ Layout.getAllDescendantSubgraphs sgs x)
    (ht : t ∈ Layout.getAllDescendantSubgraphs sgs d) :
    t ∈ Layout.getAllDescendantSubgraphs sgs x := by
  obtain ⟨p, hpne, hplen, hpchain, hplast⟩ :=
    (mem_descWithin_iff (Layout.childSubgraphsOf sgs) sgs.length x d).mp hd
  obtain ⟨q, hqne, hqlen, hqchain, hqlast⟩ :=
    (mem_descWithin_iff (Layout.childSubgraphsOf sgs) sgs.length d t).mp ht
  have hlastD : p.getLastD x = d := by
    rw [List.getLastD_eq_getLast?, hplast]
    rfl
  have hchain : ChildChain (Layout.childSubgraphsOf sgs) x (p ++ q) :=
    childChain_append _ p q x hpchain (by rw [hlastD]; exact hqchain)
  have hlen := chain_length_le sgs hkeys hdepth (p ++ q) x ix hx hchain
  refine (mem_descWithin_iff (Layout.childSubgraphsOf sgs) sgs.length x t).mpr
    ⟨p ++ q, ?_, hlen, hchain, ?_⟩
  · intro hnil
    exact hqne (List.append_eq_nil.mp hnil).2
  · rw [getLast?_append_right p q hqne]
    exact hqlast

/-- Node ownership propagates from a descendant to its ancestor. -/
theorem owns_of_desc (sgs : List (String × SubgraphInfo))
    (hkeys : (sgs.map Prod.fst).Nodup)
    (hdepth : ∀ p ∈ sgs, ∀ q ∈ sgs, p.2.parent = some q.1 → q.2.depth < p.2.depth)
    (lns : List Layout.LayoutNode) (c : String) (ic : SubgraphInfo)
    (hc : Layout.mapGet sgs c = some ic) (d : String)
    (hd : d ∈ Layout.getAllDescendantSubgraphs sgs c)
    (hown : OwnsNode sgs lns d) : OwnsNode sgs lns c := by
  obtain ⟨n, hn, hcase⟩ := hown
  refine ⟨n, hn, Or.inr ?_⟩
  rcases hcase with h1 | ⟨t, ht, htd⟩
  · exact ⟨d, h1, hd⟩
  · exact ⟨t, ht, desc_trans sgs hkeys hdepth c ic hc d t hd htd⟩

/-- A produced fallback box certifies node ownership. -/
theorem fallbackBox_some_owns (sgs : List (String × SubgraphInfo))
    (lns : List Layout.LayoutNode) (boxes : List (String × Layout.SubgraphBox))
    (sgId : String) (info : SubgraphInfo) (b : Layout.SubgraphBox)
    (hb : Layout.fallbackBox sgs lns boxes sgId info = some b) :
    OwnsNode sgs lns sgId := by
  unfold Layout.fallbackBox at hb
  dsimp only at hb
  split at hb
  · cases hb
  · rename_i hne
    have hnn : (lns.filter (fun n => n.node.subgraph = some sgId) ++
        lns.filter
          (Layout.isDescNode (Layout.getAllDescendantSubgraphs sgs sgId))) ≠ [] := by
      intro h0
      exact hne (by rw [h0]; rfl)
    obtain ⟨n, hn⟩ := List.exists_mem_of_ne_nil _ hnn
    rcases List.mem_append.mp hn with h1 | h2
    · have h1' := List.mem_filter.mp h1
      exact ⟨n, h1'.1, Or.inl (by simpa using h1'.2)⟩
    · have h2' := List.mem_filter.mp h2
      obtain ⟨s, hs, hsd⟩ := (isDescNode_iff _ _).mp h2'.2
      exact ⟨n, h2'.1, Or.inr ⟨s, hs, hsd⟩⟩

/-- The box-synthesis fold maintains the containment invariant when the
solver reports no cluster geometry for the processed containers. -/
theorem boxesFold_inv (sv : Solver) (sgs : List (String × SubgraphInfo))
    (lns : List Layout.LayoutNode)
    (hkeys : (sgs.map Prod.fst).Nodup)
    (hdepth : ∀ p ∈ sgs, ∀ q ∈ sgs, p.2.parent = some q.1 → q.2.depth < p.2.depth)
    (L : List (String × SubgraphInfo)) :
    ∀ boxes : List (String × Layout.SubgraphBox),
      (∀ p ∈ L, sv.node p.1 = none) →
      (∀ p ∈ L, p ∈ sgs) →
      L.Pairwise (fun a b => b.2.depth ≤ a.2.depth) →
      (L.map Prod.fst).Nodup →
      BoxesInv sgs lns L boxes →
      BoxesInv sgs lns [] (L.foldl (boxStep sv sgs lns) boxes) := by
  induction L with
  | nil => intro boxes _ _ _ _ hinv; exact hinv
  | cons hd L ih =>
      intro boxes hsolver hsub hsort hLkeys hinv
      rw [List.foldl_cons]
      obtain ⟨hperL, hcomp⟩ := hinv
      obtain ⟨hhd, hsortL⟩ := List.pairwise_cons.mp hsort
      obtain ⟨hfresh, hLkeys'⟩ := List.nodup_cons.mp (List.map_cons Prod.fst hd L ▸ hLkeys)
      have hnone : sv.node hd.1 = none := hsolver hd (List.mem_cons_self _ _)
      have hmem_hd : hd ∈ sgs := hsub hd (List.mem_cons_self _ _)
      have hget_hd : Layout.mapGet sgs hd.1 = some hd.2 :=
        mapGet_of_mem_nodup sgs hd.1 hd.2 hmem_hd hkeys
      have hdfresh : hd.1 ∉ boxes.map Prod.fst := by
        intro hmem
        obtain ⟨q, hq, hq1⟩ := List.mem_map.mp hmem
        obtain ⟨_, hfr, _, _, _⟩ := hperL q hq
        exact hfr (by simp [hq1])
      refine ih (boxStep sv sgs lns boxes hd)
        (fun p hp => hsolver p (List.mem_cons_of_mem _ hp))
        (fun p hp => hsub p (List.mem_cons_of_mem _ hp))
        hsortL hLkeys' ?_
      cases hfb : Layout.fallbackBox sgs lns boxes hd.1 hd.2 with
      | none =>
          have hb2 : boxStep sv sgs lns boxes hd = boxes := by
            simp only [boxStep, hnone, hfb]
          rw [hb2]
          refine ⟨?_, ?_⟩
          · intro p hp
            obtain ⟨⟨inf, hinf, hrem⟩, hfr, hown, hdir, hdesc⟩ := hperL p hp
            exact ⟨⟨inf, hinf, fun q hq => hrem q (List.mem_cons_of_mem _ hq)⟩,
              fun h => hfr (List.mem_cons_of_mem _ h), hown, hdir, hdesc⟩
          · intro s inf hsinf
            rcases hcomp s inf hsinf with hin | hno | hbox
            · rcases List.mem_cons.mp hin with heq | hin'
              · right; left
                have hs : s = hd.1 := by rw [← heq]
                intro hown
                rw [hs] at hown
                obtain ⟨b, hb⟩ :=
                  fallbackBox_isSome_of_owns sgs lns boxes hd.1 hd.2 hown
                rw [hfb] at hb
                cases hb
              · left; exact hin'
            · right; left; exact hno
            · right; right; exact hbox
      | some b =>
          have hnotdesc : hd.1 ∉ Layout.getAllDescendantSubgraphs sgs hd.1 :=
            not_self_desc sgs hkeys hdepth hd.1 hd.2 hget_hd
          have hcont := fallbackBox_contains sgs lns boxes hd.1 hd.2 b hfb
          have hb2 : boxStep sv sgs lns boxes hd = boxes ++ [(hd.1, b)] := by
            have hb1 : boxStep sv sgs lns boxes hd = mapSet boxes hd.1 b := by
              simp only [boxStep, hnone, hfb]
            rw [hb1]
            exact mapSet_not_mem boxes hd.1 b hdfresh
          rw [hb2]
          have hgetnone : Layout.mapGet boxes hd.1 = none :=
            mapGet_not_mem boxes hd.1 hdfresh
          refine ⟨?_, ?_⟩
          · intro p hp
            rcases List.mem_append.mp hp with hp' | hp'
            · -- an already-stored box
              obtain ⟨⟨inf, hinf, hrem⟩, hfr, hown, hdir, hdesc⟩ := hperL p hp'
              refine ⟨⟨inf, hinf, fun q hq => hrem q (List.mem_cons_of_mem _ hq)⟩,
                fun h => hfr (List.mem_cons_of_mem _ h), hown, hdir, ?_⟩
              intro d hd' bd hbd
              cases hdb : Layout.mapGet boxes d with
              | some bd0 =>
                  have heq := (mapGet_append_of_some boxes [(hd.1, b)] d bd0
                    hdb).symm.trans hbd
                  obtain rfl := Option.some_inj.mp heq
                  exact hdesc d hd' bd0 hdb
              | none =>
                  by_cases hdd : hd.1 = d
                  · exfalso
                    subst hdd
                    obtain ⟨idd, hgidd, hlt⟩ := desc_depth_lt sgs hkeys hdepth p.1 inf
                      (mapGet_of_mem_nodup sgs p.1 inf hinf hkeys) hd.1 hd'
                    have hidd : idd = hd.2 :=
                      Option.some_inj.mp (hgidd.symm.trans hget_hd)
                    rw [hidd] at hlt
                    exact absurd hlt (not_lt.mpr (hrem hd (List.mem_cons_self _ _)))
                  · rw [mapGet_append_single boxes hd.1 d b hdb, if_neg hdd] at hbd
                    cases hbd
            · -- the freshly-stored box
              obtain rfl := List.mem_singleton.mp hp'
              refine ⟨⟨hd.2, hmem_hd, fun q hq => hhd q hq⟩, hfresh,
                fallbackBox_some_owns sgs lns boxes hd.1 hd.2 b hfb,
                fun n hn hsub' => hcont.1 n hn (Or.inl hsub'), ?_⟩
              intro d hd' bd hbd
              have hdne : hd.1 ≠ d := fun h => hnotdesc (h ▸ hd')
              cases hdb : Layout.mapGet boxes d with
              | none =>
                  rw [mapGet_append_single boxes hd.1 d b hdb, if_neg hdne] at hbd
                  cases hbd
              | some bd0 =>
                  have heq := (mapGet_append_of_some boxes [(hd.1, b)] d bd0
                    hdb).symm.trans hbd
                  obtain rfl := Option.some_inj.mp heq
                  obtain ⟨pth, hpne, hplen, hpchain, hplast⟩ :=
                    (mem_descWithin_iff (Layout.childSubgraphsOf sgs) sgs.length
                      hd.1 d).mp hd'
                  cases pth with
                  | nil => exact absurd rfl hpne
                  | cons c pth' =>
                      obtain ⟨hc, hchain'⟩ := hpchain
                      cases pth' with
                      | nil =>
                          have hcd : c = d := by simpa using hplast
                          subst hcd
                          exact hcont.2 c hc bd0 hdb
                      | cons c2 pth'' =>
                          rw [List.getLast?_cons_cons] at hplast
                          have hdc : d ∈ Layout.getAllDescendantSubgraphs sgs c := by
                            refine (mem_descWithin_iff
                              (Layout.childSubgraphsOf sgs) sgs.length c d).mpr
                              ⟨c2 :: pth'', by simp,
                               le_trans (Nat.le_succ _) hplen, hchain', hplast⟩
                          obtain ⟨ic, hic, hpar⟩ :=
                            (mem_childSubgraphsOf sgs hd.1 c).mp hc
                          have hgc : Layout.mapGet sgs c = some ic :=
                            mapGet_of_mem_nodup sgs c ic hic hkeys
                          have hdbd : (d, bd0) ∈ boxes :=
                            mapGet_mem_pair boxes d bd0 hdb
                          obtain ⟨_, _, hdown, _, _⟩ := hperL (d, bd0) hdbd
                          have hcown : OwnsNode sgs lns c :=
                            owns_of_desc sgs hkeys hdepth lns c ic hgc d hdc hdown
                          rcases hcomp c ic hic with hcin | hcno | ⟨bc, hbc⟩
                          · exfalso
                            rcases List.mem_cons.mp hcin with hceq | hcin'
                            · have hc1 : c = hd.1 := by rw [← hceq]
                              rw [hc1] at hc
                              exact hnotdesc ((mem_descWithin_iff
                                (Layout.childSubgraphsOf sgs) sgs.length hd.1
                                hd.1).mpr ⟨[hd.1], by simp,
                                  List.length_pos.mpr (List.ne_nil_of_mem hmem_hd),
                                  ⟨hc, trivial⟩, rfl⟩)
                            · have hlt := hdepth (c, ic) hic (hd.1, hd.2) hmem_hd hpar
                              exact absurd hlt (not_lt.mpr (hhd (c, ic) hcin'))
                          · exact absurd hcown hcno
                          · have hbcmem : (c, bc) ∈ boxes :=
                              mapGet_mem_pair boxes c bc hbc
                            obtain ⟨_, _, _, _, hcdesc⟩ := hperL (c, bc) hbcmem
                            exact boxContainsBox_trans b bc bd0
                              (hcont.2 c hc bc hbc) (hcdesc d hdc bd0 hdb)
          · intro s inf hsinf
            rcases hcomp s inf hsinf with hin | hno | ⟨b0, hb0⟩
            · rcases List.mem_cons.mp hin with heq | hin'
              · right; right
                have hs : s = hd.1 := by rw [← heq]
                rw [hs]
                exact ⟨b, by rw [mapGet_append_single boxes hd.1 hd.1 b hgetnone,
                  if_pos rfl]⟩
              · left; exact hin'
            · right; left; exact hno
            · right; right
              exact ⟨b0, mapGet_append_of_some boxes [(hd.1, b)] s b0 hb0⟩

/-- Claim C4 (amended): in the all-fallback path (the solver reports no
record for any container) and with consistent container metadata
(pairwise-distinct keys, every child strictly deeper than its declared
parent), every container box of `computeLayout` encloses — left/top
bounds at most, right/bottom bounds at least — every node directly owned
by that container and every descendant container's output box, in the
same coordinate frame.  (When the solver reports usable cluster
geometry, that geometry is copied verbatim and can violate containment;
see the counterexample.) -/
theorem subgraph_containment (sv : Solver) (g : GraphData)
    (hsolver : ∀ p ∈ g.subgraphs, sv.node p.1 = none)
    (hkeys : (g.subgraphs.map Prod.fst).Nodup)
    (hdepth : ∀ p ∈ g.subgraphs, ∀ q ∈ g.subgraphs,
      p.2.parent = some q.1 → q.2.depth < p.2.depth) :
    ∀ p ∈ (Layout.computeLayout sv g).subgraphBoxes,
      (∀ n ∈ (Layout.computeLayout sv g).nodes,
        n.node.subgraph = some p.1 → boxContainsNode p.2 n) ∧
      (∀ d ∈ Layout.getAllDescendantSubgraphs g.subgraphs p.1, ∀ bd,
        Layout.mapGet (Layout.computeLayout sv g).subgraphBoxes d = some bd →
          boxContainsBox p.2 bd) := by
  cases hemp : g.nodes.isEmpty with
  | true =>
      intro p hp
      rw [show (Layout.computeLayout sv g).subgraphBoxes = [] from by
        unfold Layout.computeLayout; rw [hemp]; rfl] at hp
      cases hp
  | false =>
      have hnodes : (Layout.computeLayout sv g).nodes =
          Layout.layoutNodesOf sv g.nodes := by
        unfold Layout.computeLayout
        rw [hemp]
        rfl
      have hboxes : (Layout.computeLayout sv g).subgraphBoxes =
          Layout.subgraphBoxesOf sv g.subgraphs
            (Layout.layoutNodesOf sv g.nodes) := by
        unfold Layout.computeLayout
        rw [hemp]
        rfl
      have hperm : ∀ p ∈ Layout.sortSubgraphsDesc g.subgraphs, p ∈ g.subgraphs := by
        intro p hp
        unfold Layout.sortSubgraphsDesc at hp
        exact (List.perm_insertionSort _ g.subgraphs).subset hp
      have hsorted : (Layout.sortSubgraphsDesc g.subgraphs).Pairwise
          (fun a b => b.2.depth ≤ a.2.depth) := by
        unfold Layout.sortSubgraphsDesc
        haveI : IsTotal (String × SubgraphInfo)
            (fun a b => b.2.depth ≤ a.2.depth) :=
          ⟨fun a b => le_total b.2.depth a.2.depth⟩
        haveI : IsTrans (String × SubgraphInfo)
            (fun a b => b.2.depth ≤ a.2.depth) :=
          ⟨fun a b c h1 h2 => le_trans h2 h1⟩
        exact List.sorted_insertionSort _ _
      have hSkeys : ((Layout.sortSubgraphsDesc g.subgraphs).map Prod.fst).Nodup := by
        unfold Layout.sortSubgraphsDesc
        exact ((List.perm_insertionSort _ g.subgraphs).map Prod.fst).nodup_iff.mpr hkeys
      have hinv0 : BoxesInv g.subgraphs (Layout.layoutNodesOf sv g.nodes)
          (Layout.sortSubgraphsDesc g.subgraphs) [] := by
        refine ⟨?_, ?_⟩
        · intro p hp
          exact absurd hp (List.not_mem_nil p)
        · intro s inf hsinf
          left
          unfold Layout.sortSubgraphsDesc
          exact (List.perm_insertionSort _ g.subgraphs).symm.subset hsinf
      have hfinal := boxesFold_inv sv g.subgraphs
        (Layout.layoutNodesOf sv g.nodes) hkeys hdepth
        (Layout.sortSubgraphsDesc g.subgraphs) []
        (fun p hp => hsolver p (hperm p hp)) hperm hsorted hSkeys hinv0
      intro p hp
      rw [hboxes, subgraphBoxesOf_eq sv g.subgraphs
        (Layout.layoutNodesOf sv g.nodes)] at hp
      obtain ⟨_, _, _, hdir, hdesc⟩ := hfinal.1 p hp
      constructor
      · intro n hn hns
        rw [hnodes] at hn
        exact hdir n hn hns
      · intro d hd bd hbd
        rw [hboxes, subgraphBoxesOf_eq sv g.subgraphs
          (Layout.layoutNodesOf sv g.nodes)] at hbd
        exact hdesc d hd bd hbd

/-- The concrete all-fallback layout of `cexGraph4` under the empty
solver: exactly the one fallback box for `g`. -/
theorem cexGraph4_noSolver_boxes :
    (Layout.computeLayout noSolver cexGraph4).subgraphBoxes = [("g", wBox4)] := by
  have hd1 : Layout.getNodeDimensions ⟨"a", "a", "function", 2, some "g"⟩
      = (200, 80) := rfl
  have hdesc0 : Layout.getAllDescendantSubgraphs
      [("g", ⟨"G", none, 1⟩)] "g" = [] := rfl
  have hch0 : Layout.childSubgraphsOf [("g", ⟨"G", none, 1⟩)] "g" = [] := rfl
  simp only [Layout.computeLayout, cexGraph4, noSolver]
  norm_num [Layout.layoutNodesOf, hd1, Layout.subgraphBoxesOf,
    Layout.sortSubgraphsDesc, List.insertionSort, Layout.fallbackBox,
    Layout.isDescNode, Layout.extStep, hdesc0, hch0, Layout.qMin,
    Layout.qMax, Layout.depthPadding, Layout.SUBGRAPH_PADDING,
    mapSet, Layout.mapGet, List.find?, wBox4, List.filter, List.filter_cons]

/-- Witness for the amended containment claim: the theorem applied to
the concrete one-container graph with no solver geometry, at its one
output box. -/
theorem subgraph_containment_witness :
    (∀ n ∈ (Layout.computeLayout noSolver cexGraph4).nodes,
      n.node.subgraph = some "g" → boxContainsNode wBox4 n) ∧
    (∀ d ∈ Layout.getAllDescendantSubgraphs cexGraph4.subgraphs "g", ∀ bd,
      Layout.mapGet (Layout.computeLayout noSolver cexGraph4).subgraphBoxes d
          = some bd → boxContainsBox wBox4 bd) :=
  subgraph_containment noSolver cexGraph4 (fun p _ => rfl) (by decide) (by decide)
    ("g", wBox4) (by rw [cexGraph4_noSolver_boxes]; exact List.mem_singleton.mpr rfl)

/-- Counterexample to C4 as stated: when the solver reports usable
cluster geometry, the box is dagre's rectangle copied verbatim, and it
need not contain the container's own node — here `g` gets the 10×10 box
at the origin while its sole direct node occupies (400, 460)–(600, 540). -/
theorem subgraph_containment_primary_false :
    (Layout.computeLayout cexSolver4 cexGraph4).subgraphBoxes
        = [("g", ⟨-5, -5, 10, 10, "G", 1, none⟩)] ∧
    (Layout.computeLayout cexSolver4 cexGraph4).nodes
        = [⟨⟨"a", "a", "function", 2, some "g"⟩, 400, 460, 200, 80⟩] ∧
    ¬ boxContainsNode ⟨-5, -5, 10, 10, "G", 1, none⟩
        ⟨⟨"a", "a", "function", 2, some "g"⟩, 400, 460, 200, 80⟩ := by
  have hd1 : Layout.getNodeDimensions ⟨"a", "a", "function", 2, some "g"⟩
      = (200, 80) := rfl
  refine ⟨?_, ?_, ?_⟩
  · simp only [Layout.computeLayout, cexGraph4, cexSolver4]
    norm_num [Layout.layoutNodesOf, hd1, Layout.subgraphBoxesOf,
      Layout.sortSubgraphsDesc, List.insertionSort, mapSet]
  · simp only [Layout.computeLayout, cexGraph4, cexSolver4]
    norm_num [Layout.layoutNodesOf, hd1, show ("a" : String) ≠ "g" by decide]
  · intro h
    obtain ⟨_, _, h3, _⟩ := h
    norm_num at h3
